import Mathlib

/-!
Shallow embedding of the meal_prep pantry/planning core and proofs about it.

The Python sources embedded here are `tools/textnorm.py`, `tools/pantry_tools.py`
and `tools/meal_plan_tools.py`.  Modelling conventions:

* Python strings are `String` (ASCII behaviour of `str.lower`, `\w`, `\s`);
  helper functions work on `List Char` and are wrapped at the `String` level.
* Python `dict` is an insertion-ordered association list; `dset` updates an
  existing key in place and appends a fresh key at the end, matching CPython
  dict semantics.
* Python `int` is `Int`; Python `float` values reaching `_round_to_step`
  (mirror factors times integer deltas, divided by integer steps) are exact
  in binary floating point for the configured rules, so they are modelled as
  `ℚ`; Python `round` is round-half-to-even (`pyRound`).
* `textnorm.canonical_key` is embedded on its deterministic fallback path
  (no spaCy model, no `inflect` package installed) which is the only
  dependency-free behaviour of the repository.
-/

namespace MealPrep

/-! ### Character helpers (ASCII model of Python `str` predicates) -/

/-- Python `\s` on ASCII: space, tab, newline, carriage return, vertical tab, form feed. -/
def isSpaceCh (c : Char) : Bool :=
  c.toNat == 32 || c.toNat == 9 || c.toNat == 10 || c.toNat == 13 ||
  c.toNat == 11 || c.toNat == 12

/-- Python `str.lower` on ASCII letters. -/
def lowerCh (c : Char) : Char :=
  if 65 ≤ c.toNat ∧ c.toNat ≤ 90 then Char.ofNat (c.toNat + 32) else c

/-- Python `\w` on ASCII: letters, digits and underscore. -/
def isWordCh (c : Char) : Bool :=
  (97 ≤ c.toNat && c.toNat ≤ 122) || (65 ≤ c.toNat && c.toNat ≤ 90) ||
  (48 ≤ c.toNat && c.toNat ≤ 57) || c.toNat == 95

def lowerL (l : List Char) : List Char := l.map lowerCh

/-- Python `str.strip()`: drop leading and trailing whitespace. -/
def stripL (l : List Char) : List Char :=
  ((l.dropWhile isSpaceCh).reverse.dropWhile isSpaceCh).reverse

def stripStr (s : String) : String := String.mk (stripL s.data)

def lowerStr (s : String) : String := String.mk (lowerL s.data)

/-! ### `textnorm._preclean` -/

/-- `s.replace("_", " ")` step of `_preclean`. -/
def underscoreToSpace (l : List Char) : List Char :=
  l.map fun c => if c == '_' then ' ' else c

/-- One global substitution pass of `re.sub(r"\s*\([^)]*\)\s*", " ", s)`:
each `(`…`)` pair (whose body holds no `)`) is replaced by a single space;
the surrounding-whitespace consumption of the regex is immaterial because
`_preclean` collapses and strips whitespace afterwards. -/
def removeParensFuel : Nat → List Char → List Char
  | 0, l => l
  | fuel + 1, l =>
    let before := l.takeWhile (· ≠ '(')
    match l.dropWhile (· ≠ '(') with
    | [] => l
    | _ :: cs =>
      match cs.dropWhile (· ≠ ')') with
      | [] => l
      | _ :: rest => before ++ ' ' :: removeParensFuel fuel rest

def removeParens (l : List Char) : List Char := removeParensFuel l.length l

/-- `re.sub(r"[^\w\s'-]+", " ", s)` — character-wise replacement; runs collapse
to a single space in the following `collapseWs` step exactly as the regex does. -/
def punctToSpace (l : List Char) : List Char :=
  l.map fun c =>
    if isWordCh c || isSpaceCh c || c == '\'' || c == '-' then c else ' '

/-- `re.sub(r"\s+", " ", s)`: replace each whitespace run with one space. -/
def collapseWs : List Char → List Char
  | [] => []
  | c :: cs =>
    let t := collapseWs cs
    if isSpaceCh c then
      match t with
      | ' ' :: _ => t
      | _ => ' ' :: t
    else c :: t

/-- `textnorm._preclean`. -/
def precleanL (l : List Char) : List Char :=
  stripL (collapseWs (punctToSpace (removeParens (underscoreToSpace (lowerL (stripL l))))))

/-! ### Token utilities -/

def splitWsGo : List Char → List Char → List (List Char)
  | [], acc => if acc.isEmpty then [] else [acc.reverse]
  | c :: cs, acc =>
    if isSpaceCh c then
      if acc.isEmpty then splitWsGo cs [] else acc.reverse :: splitWsGo cs []
    else splitWsGo cs (c :: acc)

/-- `re.split(r"\s+", s)` with empty tokens discarded (as the list
comprehension in `canonical_key` does). -/
def splitWsL (l : List Char) : List (List Char) := splitWsGo l []

/-- Join tokens with single spaces (shape of `" ".join`). -/
def joinSp : List (List Char) → List Char
  | [] => []
  | [t] => t
  | t :: ts => t ++ ' ' :: joinSp ts

/-! ### `textnorm` word lists -/

/-- `DROP_DESCRIPTORS` (the second, effective definition in the source). -/
def dropDescriptors : List (List Char) :=
  ["dry".data, "powdered".data, "grated".data, "minced".data, "crushed".data,
   "sliced".data, "chopped".data, "large".data, "small".data, "medium".data,
   "boneless".data, "skinless".data, "uncooked".data, "unsalted".data,
   "salted".data, "sweetened".data, "unsweetened".data, "canned".data,
   "frozen".data, "ripe".data, "peeled".data, "whole".data]

/-- Suffixes accepted by `_CHILI_RE = ^chil(?:i|ie|ies|y|li|lies|lies?)$`. -/
def chiliSuffixes : List (List Char) :=
  ["i".data, "ie".data, "ies".data, "y".data, "li".data, "lies".data, "lie".data]

def isChiliTok : List Char → Bool
  | 'c' :: 'h' :: 'i' :: 'l' :: rest => chiliSuffixes.contains rest
  | _ => false

/-- `textnorm._fold_token_spelling`. -/
def foldTok (tok : List Char) : List Char :=
  let t := lowerL (stripL tok)
  if t.isEmpty then t
  else if isChiliTok t then "chili".data
  else t.map fun c => if c == '’' then '\'' else c

def vowels : List Char := ['a', 'e', 'i', 'o', 'u']

/-- `re.search(r"([^aeiou]ies)$", w)` — a non-vowel character followed by `ies`
at the end of the word. -/
def iesCond (w : List Char) : Bool :=
  4 ≤ w.length && ("ies".data.isSuffixOf w) && !(vowels.contains (w.getD (w.length - 4) ' '))

/-- `re.search(r"(ches|shes|xes|zes|ses)$", w)`. -/
def esCond (w : List Char) : Bool :=
  ("ches".data.isSuffixOf w) || ("shes".data.isSuffixOf w) || ("xes".data.isSuffixOf w) ||
  ("zes".data.isSuffixOf w) || ("ses".data.isSuffixOf w)

/-- `textnorm._singular_fallback` on the path with the optional `inflect`
package absent (the crude-endings branch of the source). -/
def singularFallbackL (word : List Char) : List Char :=
  let w := lowerL (stripL word)
  if w.isEmpty then w
  else if w = "leaves".data ∨ w = "leave".data then "leaf".data
  else if iesCond w then w.take (w.length - 3) ++ "y".data
  else if esCond w then w.take (w.length - 2)
  else if w.getLast? = some 's' ∧ 3 < w.length then w.take (w.length - 1)
  else w

/-- `textnorm.canonical_key`, fallback (no-spaCy) path: preclean, drop
descriptor tokens, fold spellings, keep at most the last two tokens and
singularize the head. -/
def canonKeyL (name : List Char) : List Char :=
  let s := precleanL name
  if s.isEmpty then s
  else
    let toks := ((splitWsL s).filter (fun t => !(dropDescriptors.contains t))).map foldTok
    match toks with
    | [] => []
    | [t] => singularFallbackL t
    | _ =>
      let pfx := toks.getD (toks.length - 2) []
      let head := singularFallbackL (toks.getD (toks.length - 1) [])
      stripL (pfx ++ ' ' :: head)

def canonical_key (s : String) : String := String.mk (canonKeyL s.data)

/-- Mass-unit spellings accepted by `canonical_and_unit`. -/
def cauMass : List String := ["g", "gram", "grams", "gms", "kg", "kilogram", "kilograms"]

/-- Volume-unit spellings accepted by `canonical_and_unit`. -/
def cauVol : List String :=
  ["ml", "milliliter", "milliliters", "millilitre", "millilitres",
   "l", "liter", "liters", "litre", "litres"]

/-- `textnorm.canonical_and_unit`: canonical name plus unit family
`g`/`ml`/`count`.  Note that it renames the label only — no quantity is
scaled anywhere on this path. -/
def canonical_and_unit (item unit : String) : String × String :=
  let u := lowerStr (stripStr unit)
  let nu := if cauMass.contains u then "g" else if cauVol.contains u then "ml" else "count"
  (canonical_key item, nu)

/-! ### `pantry_tools` — ledger model -/

/-- `pantry_tools._canon_item`. -/
def canon_item (s : String) : String := lowerStr (stripStr s)

/-- `pantry_tools._norm_unit`: empty/None input means `count`; known mass,
volume and count spellings fold to the family name; anything else is returned
stripped and lowered, unrecognized scales (such as `kilo`) included. -/
def norm_unit (u : String) : String :=
  if u = "" then "count"
  else
    let v := lowerStr (stripStr u)
    if ["kg", "kilogram", "kilograms"].contains v then "g"
    else if ["g", "gram", "grams", "gms"].contains v then "g"
    else if ["l", "litre", "liter", "liters", "litres"].contains v then "ml"
    else if ["ml", "millilitre", "milliliter", "milliliters", "millilitres"].contains v then "ml"
    else if ["count", "pc", "pcs", "piece", "pieces"].contains v then "count"
    else v

/-- `pantry_tools._key`. -/
def pkey (item unit : String) : String :=
  canon_item item ++ " (" ++ norm_unit unit ++ ")"

/-- Python `dict` lookup on an insertion-ordered association list. -/
def alget {κ ν : Type} [DecidableEq κ] (l : List (κ × ν)) (k : κ) : Option ν :=
  (l.find? fun p => decide (p.1 = k)).map (·.2)

/-- Python `dict` assignment: update an existing key in place, append a fresh
key at the end. -/
def alset {κ ν : Type} [DecidableEq κ] : List (κ × ν) → κ → ν → List (κ × ν)
  | [], k, v => [(k, v)]
  | p :: ps, k, v => if p.1 = k then (k, v) :: ps else p :: alset ps k v

/-- Python `dict` deletion (no-op when the key is absent, as guarded uses). -/
def aldel {κ ν : Type} [DecidableEq κ] : List (κ × ν) → κ → List (κ × ν)
  | [], _ => []
  | p :: ps, k => if p.1 = k then ps else p :: aldel ps k

/-- The pantry JSON store `{ "<item> (<unit>)": qty }` as an insertion-ordered
association list. -/
abbrev Store := List (String × Int)

def dget (s : Store) (k : String) : Option Int := alget s k

def dgetD (s : Store) (k : String) : Int := (dget s k).getD 0

def dset (s : Store) (k : String) (v : Int) : Store := alset s k v

def ddel (s : Store) (k : String) : Store := aldel s k

/-- One `alt_units.json` rule `{item, from, to, factor, round}`. -/
structure AltRule where
  item : String
  fromUnit : String
  toUnit : String
  factor : ℚ
  step : Option Int
  deriving DecidableEq, Repr

/-- Python `round` applied to the fraction `n / d` (`d > 0`): round half to
even (banker's rounding), computed on integers so that the kernel can
evaluate it. -/
def bankerRound (n d : Int) : Int :=
  let f := n.fdiv d
  let r2 := 2 * (n - f * d)
  if r2 < d then f else if d < r2 then f + 1 else if f % 2 = 0 then f else f + 1

/-- Python `round` on an exact rational. -/
def pyRound (q : ℚ) : Int := bankerRound q.num q.den

/-- `pantry_tools._round_to_step` applied to `value = x * factor` (the only
call shape in the source): `None`, zero or negative steps mean nearest
integer, else `int(round(value / step) * step)`.  The fraction
`x * factor = (x * factor.num) / factor.den` is kept unnormalized; its value
is exact, matching the Python float arithmetic on the configured rules. -/
def round_mul_step (x : Int) (factor : ℚ) (step : Option Int) : Int :=
  let n := x * factor.num
  let d : Int := (factor.den : Int)
  match step with
  | none => bankerRound n d
  | some st => if st ≤ 0 then bankerRound n d else bankerRound n (d * st) * st

/-- `pantry_tools._alt_transforms_for`. -/
def alt_transforms_for (rules : List AltRule) (item unitFrom : String) : List AltRule :=
  let it := canon_item item
  let uf := norm_unit unitFrom
  rules.filter fun r => canon_item r.item == it && norm_unit r.fromUnit == uf

/-- `_PantryDB._bump`: add a signed delta, dropping the key at `≤ 0`. -/
def bump (s : Store) (item unit : String) (delta : Int) : Store :=
  let k := pkey item unit
  let nv := dgetD s k + delta
  if nv ≤ 0 then ddel s k else dset s k nv

/-- `_PantryDB._set_exact`. -/
def set_exact (s : Store) (item unit : String) (qty : Int) : Store :=
  let k := pkey item unit
  if qty ≤ 0 then ddel s k else dset s k qty

/-- `_PantryDB._mirror_delta`: apply the configured signed delta in every
mapped target unit, rounded to the rule's step. -/
def mirror_delta (rules : List AltRule) (s : Store) (item unitFrom : String)
    (delta : Int) : Store :=
  if delta = 0 then s
  else
    (alt_transforms_for rules item unitFrom).foldl
      (fun st r =>
        let dTo := round_mul_step delta r.factor r.step
        if dTo ≠ 0 then bump st item (norm_unit r.toUnit) dTo else st)
      s

/-- `_PantryDB._mirror_set`: overwrite each target unit with the transformed
quantity. -/
def mirror_set (rules : List AltRule) (s : Store) (item unitFrom : String)
    (qty : Int) : Store :=
  (alt_transforms_for rules item unitFrom).foldl
    (fun st r => set_exact st item (norm_unit r.toUnit) (round_mul_step qty r.factor r.step))
    s

/-- `_PantryDB.add` (message, new store). -/
def padd (rules : List AltRule) (s : Store) (item0 : String) (qty : Int)
    (unit0 : String) : String × Store :=
  let item := canon_item item0
  let unit := norm_unit unit0
  if qty ≤ 0 then ("⚠️ Quantity must be > 0.", s)
  else
    let s1 := bump s item unit qty
    let s2 := mirror_delta rules s1 item unit qty
    ("✅ Added " ++ toString qty ++ " " ++ unit ++ " of " ++ item ++ ". Now you have " ++
       toString (dgetD s2 (pkey item unit)) ++ " " ++ unit ++ ".", s2)

/-- `_PantryDB.update`. -/
def pupdate (rules : List AltRule) (s : Store) (item0 : String) (qty : Int)
    (unit0 : String) : String × Store :=
  let item := canon_item item0
  let unit := norm_unit unit0
  if qty < 0 then ("⚠️ Quantity must be ≥ 0.", s)
  else
    let s1 := set_exact s item unit qty
    let s2 := mirror_set rules s1 item unit qty
    ("🔄 Set " ++ item ++ " to " ++ toString qty ++ " " ++ unit ++ ".", s2)

/-- `_PantryDB.remove`: absent key is a rejected no-op; absent quantity
removes the whole entry; a positive quantity is subtracted floored at zero;
mirrors receive the same (capped) delta. -/
def premove (rules : List AltRule) (s : Store) (item0 : String)
    (qty : Option Int) (unit0 : String) : String × Store :=
  let item := canon_item item0
  let unit := norm_unit unit0
  let k := pkey item unit
  if dget s k = none then ("⚠️ " ++ item ++ " (" ++ unit ++ ") not found.", s)
  else
    match qty with
    | none =>
      let delta := -(dgetD s k)
      let s1 := bump s item unit delta
      let s2 := mirror_delta rules s1 item unit delta
      ("🗑️ Removed all " ++ item ++ " (" ++ unit ++ ").", s2)
    | some q =>
      if q ≤ 0 then ("⚠️ Quantity must be > 0.", s)
      else
        let existing := dgetD s k
        let delta := -(min q existing)
        let s1 := bump s item unit delta
        let s2 := mirror_delta rules s1 item unit delta
        let left := dgetD s2 k
        if left = 0 then
          ("🗑️ Removed " ++ toString q ++ " " ++ unit ++ " of " ++ item ++ ". Remaining: 0.", s2)
        else
          ("🗑️ Removed " ++ toString q ++ " " ++ unit ++ " of " ++ item ++ ". Remaining: " ++
             toString left ++ " " ++ unit ++ ".", s2)

/-! ### `meal_plan_tools` — recipes, unit normalization, shadow pantry -/

structure Ingredient where
  item : String
  quantity : Int
  unit : String
  deriving DecidableEq, Repr

structure Recipe where
  name : String
  cuisine : String
  diet : String
  prepTime : Int
  cookTime : Int
  ingredients : List Ingredient
  deriving DecidableEq, Repr

/-- Alias table of `meal_plan_tools._normalize_unit`. -/
def unitAliases : List (String × String) :=
  [("g", "g"), ("gram", "g"), ("grams", "g"), ("gms", "g"),
   ("kg", "g"), ("kilogram", "g"), ("kilograms", "g"),
   ("ml", "ml"), ("milliliter", "ml"), ("milliliters", "ml"),
   ("millilitre", "ml"), ("millilitres", "ml"),
   ("l", "ml"), ("liter", "ml"), ("liters", "ml"), ("litre", "ml"), ("litres", "ml"),
   ("count", "count"), ("piece", "count"), ("pieces", "count"),
   ("pc", "count"), ("pcs", "count")]

/-- `meal_plan_tools._normalize_unit`: empty input means `count`; known
spellings fold to their family; anything else comes back stripped/lowered. -/
def normalize_unit (u : String) : String :=
  if u = "" then "count"
  else
    let s := lowerStr (stripStr u)
    (alget unitAliases s).getD s

/-- `meal_plan_tools._normalise`: lower-case plus very simple plural
stripping. -/
def normalise (name : String) : String :=
  let n := lowerStr (stripStr name)
  if "ies".data.isSuffixOf n.data then String.mk (n.data.take (n.data.length - 3) ++ "y".data)
  else if n.data.getLast? = some 's' ∧ 3 < n.data.length then String.mk (n.data.take (n.data.length - 1))
  else n

/-- `meal_plan_tools._split_pantry_key`, the regex
`^\s*(.*?)\s*\(([^)]+)\)\s*$`: after stripping trailing whitespace the key
must end in `)`; the unit group starts at the first `(` that is not followed
by any further `)` before the final one and must be nonempty; otherwise the
fallback takes everything before the first `(` as the base with unit
`count`. -/
def splitPantryKey (k : String) : String × String :=
  let d := k.data
  let fallback : String × String :=
    (normalise (String.mk (d.takeWhile (· ≠ '('))), "count")
  let t := (d.reverse.dropWhile isSpaceCh).reverse
  if t.getLast? = some ')' then
    let body := t.dropLast
    let tailSeg := (body.reverse.takeWhile (· ≠ ')')).reverse
    let afterPar := tailSeg.dropWhile (· ≠ '(')
    match afterPar with
    | [] => fallback
    | _ :: unitCs =>
      if unitCs.isEmpty then fallback
      else
        let base := stripL (body.take (body.length - afterPar.length))
        (normalise (String.mk base), normalize_unit (String.mk unitCs))
  else fallback

/-- `meal_plan_tools._recipe_requirements_canon`: canonical
`(name, unit_family, qty)` lines, dropping blank items and non-positive
quantities. -/
def recipe_requirements_canon (r : Recipe) : List (String × String × Int) :=
  r.ingredients.filterMap fun ing =>
    let item := stripStr ing.item
    let qty := ing.quantity
    let unit := normalize_unit ing.unit
    if item = "" ∨ qty ≤ 0 then none
    else
      let cu := canonical_and_unit item unit
      some (cu.1, cu.2, qty)

/-- Shadow pantry `(canonical_name, unit_family) → qty`. -/
abbrev Shadow := List ((String × String) × Int)

def sget (sh : Shadow) (key : String × String) : Option Int := alget sh key

def sgetD (sh : Shadow) (key : String × String) : Int := (sget sh key).getD 0

def sset (sh : Shadow) (key : String × String) (v : Int) : Shadow := alset sh key v

/-- `meal_plan_tools._shadow_pantry_snapshot_canon`: canonicalize every
ledger entry, summing quantities that collide on one canonical key. -/
def shadow_snapshot (pantry : Store) : Shadow :=
  pantry.foldl
    (fun sh kv =>
      let bu := splitPantryKey kv.1
      let cu := canonical_and_unit bu.1 bu.2
      sset sh cu (sgetD sh cu + kv.2))
    []

/-- `meal_plan_tools._can_fulfill_strict_canon`. -/
def can_fulfill_strict_canon (r : Recipe) (sh : Shadow) : Bool :=
  (recipe_requirements_canon r).all fun t => t.2.2 ≤ sgetD sh (t.1, t.2.1)

/-- `meal_plan_tools._apply_deduction_canon`: subtract each requirement from
the shadow, clamped at zero. -/
def apply_deduction_canon (r : Recipe) (sh : Shadow) : Shadow :=
  (recipe_requirements_canon r).foldl
    (fun s t => sset s (t.1, t.2.1) (max 0 (sgetD s (t.1, t.2.1) - t.2.2)))
    sh

/-! ### `meal_plan_tools` — constraints, eligibility, scheduling order -/

structure Constraints where
  mode : String
  allowRepeats : Bool
  cuisine : Option String
  diet : Option String
  maxTime : Option Int
  deriving DecidableEq, Repr

/-- `meal_plan_tools._recipe_eligible_by_filters`; `None`, empty strings and
`max_time = 0` are falsy and disable the corresponding filter. -/
def recipe_eligible_by_filters (r : Recipe) (c : Constraints) : Bool :=
  (match c.cuisine with
   | none => true
   | some cu => cu == "" || lowerStr (stripStr r.cuisine) == cu) &&
  (match c.diet with
   | none => true
   | some w =>
     w == "" ||
       (let d := lowerStr (stripStr r.diet)
        d == w || d == "any" || d == "")) &&
  (match c.maxTime with
   | none => true
   | some t => t == 0 || r.prepTime + r.cookTime ≤ t)

def nameOf (r : Recipe) : String := stripStr r.name

def nameLOf (r : Recipe) : String := lowerStr (stripStr r.name)

/-- Python string `<`: lexicographic comparison of code points. -/
def listCharLt : List Char → List Char → Bool
  | [], [] => false
  | [], _ :: _ => true
  | _ :: _, [] => false
  | a :: as, b :: bs =>
    if a.toNat < b.toNat then true
    else if b.toNat < a.toNat then false
    else listCharLt as bs

def pyStrLt (a b : String) : Bool := listCharLt a.data b.data

/-- Candidate order `(name.lower(), cuisine.lower())` used as the stable
tie-break everywhere in `auto_plan`. -/
def candLe (x y : Recipe) : Bool :=
  let ax := lowerStr x.name
  let ay := lowerStr y.name
  if ax = ay then
    (let cx := lowerStr x.cuisine
     let cy := lowerStr y.cuisine
     cx == cy || pyStrLt cx cy)
  else pyStrLt ax ay

/-- Stable ascending sort.  CPython's `list.sort` is stable, and a stable
ascending sort for a total preorder is uniquely determined, so the
(structurally recursive, hence kernel-computable) insertion sort yields
exactly the list the Python code builds. -/
def stableSortBy {α : Type} (le : α → α → Bool) (l : List α) : List α :=
  List.insertionSort (fun a b => le a b = true) l

def eligible_candidates (catalog : List Recipe) (c : Constraints) : List Recipe :=
  stableSortBy candLe (catalog.filter (recipe_eligible_by_filters · c))

/-- Less-than on exact have/need fractions with positive denominators
(`Python` compares the float quotients; exact on the scales arising here). -/
def ratioLt (x y : Int × Int) : Bool := x.1 * y.2 < y.1 * x.2

/-- Minimum have/need fraction over the requirement lines of a recipe
(`none` plays `float("inf")`: no line with positive need). -/
def minRatio (r : Recipe) (sh : Shadow) : Option (Int × Int) :=
  (recipe_requirements_canon r).foldl
    (fun (acc : Option (Int × Int)) (t : String × String × Int) =>
      if t.2.2 ≤ 0 then acc
      else
        let hv := sgetD sh (t.1, t.2.1)
        match acc with
        | none => some (hv, t.2.2)
        | some ab => if ratioLt (hv, t.2.2) ab then some (hv, t.2.2) else acc)
    none

/-- Tuple order `(total_time, name.lower())`. -/
def timeNameLe (x y : Recipe) : Bool :=
  let tx := x.prepTime + x.cookTime
  let ty := y.prepTime + y.cookTime
  if tx = ty then
    (let nx := lowerStr x.name
     let ny := lowerStr y.name
     nx == ny || pyStrLt nx ny)
  else decide (tx < ty)

/-- `meal_plan_tools._tightness_key` as a comparator:
`(min_ratio, total_time, name.lower())` ascending. -/
def tightLe (sh : Shadow) (x y : Recipe) : Bool :=
  match minRatio x sh, minRatio y sh with
  | none, none => timeNameLe x y
  | none, some _ => false
  | some _, none => true
  | some a, some b =>
    if ratioLt a b then true else if ratioLt b a then false else timeNameLe x y

/-- `meal_plan_tools._coverable_once_sorted`. -/
def coverable_once_sorted (cands : List Recipe) (sh0 : Shadow) : List Recipe :=
  stableSortBy (tightLe sh0) (cands.filter (can_fulfill_strict_canon · sh0))

/-! ### `meal_plan_tools.auto_plan` -/

/-- The `meals` payload field: a list of slot names, an integer, or anything
else. -/
inductive MealsArg where
  | int (n : Int)
  | names (l : List String)
  | other
  deriving Repr

/-- `meal_plan_tools._slot_names`. -/
def slot_names : MealsArg → List String
  | .names l => l
  | .int n =>
    if n = 2 then ["Breakfast", "Lunch"]
    else if n = 1 then ["Dinner"] else ["Breakfast", "Lunch", "Dinner"]
  | .other => ["Breakfast", "Lunch", "Dinner"]

/-- `int(re.sub(r"\D", "", d) or "0")`: the digits of a day key, read as a
number. -/
def digitsVal (s : String) : Int :=
  (s.data.filter fun c => 48 ≤ c.toNat && c.toNat ≤ 57).foldl
    (fun a c => a * 10 + ((c.toNat : Int) - 48)) 0

/-- A plan row `meal name → dish name`. -/
abbrev Row := List (String × String)

/-- A plan `day key → row`. -/
abbrev Plan := List (String × Row)

def rowGet (row : Row) (m : String) : Option String := alget row m

def rowSet (row : Row) (m v : String) : Row := alset row m v

/-- Python `dict.setdefault`. -/
def rowSetdefault (row : Row) (m v : String) : Row :=
  if (rowGet row m).isSome then row else rowSet row m v

def planGet (p : Plan) (d : String) : Option Row := alget p d

def planSet (p : Plan) (d : String) (row : Row) : Plan := alset p d row

/-- First day index to fill: `max` of the digits of existing day keys plus
one when continuing a non-empty plan, else 1. -/
def start_day (cont : Bool) (plan : Plan) : Int :=
  if cont ∧ plan ≠ [] then (plan.foldl (fun a e => max a (digitsVal e.1)) 0) + 1
  else 1

/-- An `auto_plan` calc-log entry (its `virtual_deducted`/`still_missing`
fields are always empty lists in the source and are omitted). -/
structure CalcEntry where
  slot : String
  dish : String
  reason : String
  deriving DecidableEq, Repr

/-- Truthiness of `prev_dish_lower`. -/
def prevTruthy : Option String → Bool
  | none => false
  | some p => p ≠ ""

def prevEq (prev : Option String) (nameL : String) : Bool :=
  match prev with
  | some p => p = nameL
  | none => false

/-- The no-consecutive-repeat guard
`(not allow_repeats) and prev_dish_lower and name_l == prev_dish_lower`. -/
def repOk (c : Constraints) (prev : Option String) (nameL : String) : Bool :=
  !(!c.allowRepeats && prevTruthy prev && prevEq prev nameL)

/-- Pass 1 of strict mode: first once-coverable recipe not yet placed, not a
consecutive repeat, still satisfiable from the current shadow. -/
def pick_pass1 (c : Constraints) (onceList : List Recipe) (onceLeft : List String)
    (prev : Option String) (sh : Shadow) : Option Recipe :=
  if onceLeft.isEmpty then none
  else
    onceList.find? fun r =>
      onceLeft.contains (nameLOf r) && repOk c prev (nameLOf r) &&
        can_fulfill_strict_canon r sh

/-- Pass 2 of strict mode: any candidate, stable order. -/
def pick_pass2 (c : Constraints) (cands : List Recipe) (prev : Option String)
    (sh : Shadow) : Option Recipe :=
  cands.find? fun r => repOk c prev (nameLOf r) && can_fulfill_strict_canon r sh

/-- Freeform pick: first eligible candidate that is not a consecutive
repeat. -/
def pick_freeform (c : Constraints) (cands : List Recipe) (prev : Option String) :
    Option Recipe :=
  cands.find? fun r => repOk c prev (nameLOf r)

/-- Mutable state threaded through the slot loop of `auto_plan`.  The
durable pantry is carried (and, per the source, never written). -/
structure LoopSt where
  pantry : Store
  shadow : Shadow
  onceLeft : List String
  prev : Option String
  filled : Nat
  calcLog : List CalcEntry
  deriving Repr

/-- The `once_names_left` set, as a deduplicated insertion-ordered list. -/
def onceNames (onceList : List Recipe) : List String :=
  onceList.foldl (fun acc r => if acc.contains (nameLOf r) then acc else acc ++ [nameLOf r]) []

/-- One day's inner meal loop of `auto_plan`: returns the updated row and
state plus `true` when a slot could not be filled (fail-fast stop). -/
def fillMeals (c : Constraints) (cands onceList : List Recipe) (cont : Bool)
    (dayKey : String) : List String → Row → LoopSt → Row × LoopSt × Bool
  | [], row, st => (row, st, false)
  | meal :: rest, row, st =>
    if cont && !((rowGet row meal).getD "").isEmpty then
      let d := lowerStr (stripStr ((rowGet row meal).getD ""))
      let prev' := if d = "" then st.prev else some d
      fillMeals c cands onceList cont dayKey rest row { st with prev := prev' }
    else
      let pick : Option (Recipe × String) :=
        if c.mode = "pantry-first-strict" then
          match pick_pass1 c onceList st.onceLeft st.prev st.shadow with
          | some r => some (r, "100% pantry coverage (once-each pass)")
          | none =>
            match pick_pass2 c cands st.prev st.shadow with
            | some r => some (r, "100% pantry coverage")
            | none => none
        else (pick_freeform c cands st.prev).map (fun r => (r, "freeform pick"))
      match pick with
      | none => (rowSetdefault row meal "", st, true)
      | some (r, reason) =>
        let dish := nameOf r
        let strict := c.mode = "pantry-first-strict"
        let st' : LoopSt :=
          { st with
            prev := some (lowerStr dish)
            filled := st.filled + 1
            shadow := if strict then apply_deduction_canon r st.shadow else st.shadow
            onceLeft := if strict then st.onceLeft.erase (nameLOf r) else st.onceLeft
            calcLog := st.calcLog ++ [⟨dayKey ++ " » " ++ meal, dish, reason⟩] }
        fillMeals c cands onceList cont dayKey rest (rowSet row meal dish) st'

/-- Day loop of `auto_plan`; the third component is the day index at which
scheduling stopped, if it did. -/
def fillDays (c : Constraints) (cands onceList : List Recipe) (cont : Bool)
    (meals : List String) : List Int → Plan → LoopSt → Plan × LoopSt × Option Int
  | [], plan, st => (plan, st, none)
  | d :: rest, plan, st =>
    let dayKey := "Day" ++ toString d
    let row0 := (planGet plan dayKey).getD []
    let res := fillMeals c cands onceList cont dayKey meals row0 st
    let plan' := planSet plan dayKey res.1
    if res.2.2 then (plan', res.2.1, some d)
    else fillDays c cands onceList cont meals rest plan' res.2.1

/-- Observable outcome of one `auto_plan` call: the plan, the log, the two
numbers reported in the `Filled x/y slots.` message, and whether the call
stopped early. -/
structure APResult where
  plan : Plan
  calcLog : List CalcEntry
  filled : Nat
  reportedAttempted : Nat
  stopped : Bool
  deriving Repr

/-- Final report assembly of `auto_plan`: on an early stop at day `d` the
denominator of `Filled x/y slots.` counts the attempted days
`range(start_at, d + 1)` only; on completion it is `days × meals`. -/
def auto_plan_assemble (days startAt : Int) (mealsLen : Nat)
    (res : Plan × LoopSt × Option Int) : APResult × Store :=
  match res.2.2 with
  | some d =>
    ({ plan := res.1, calcLog := res.2.1.calcLog, filled := res.2.1.filled,
       reportedAttempted := (d + 1 - startAt).toNat * mealsLen, stopped := true },
     res.2.1.pantry)
  | none =>
    ({ plan := res.1, calcLog := res.2.1.calcLog, filled := res.2.1.filled,
       reportedAttempted := days.toNat * mealsLen, stopped := false },
     res.2.1.pantry)

/-- `meal_plan_tools.auto_plan` (payload already parsed): fills slots
day-major/meal-minor, simulating deductions on the canonical shadow in
strict mode, and returns the untouched durable pantry alongside. -/
def auto_plan (catalog : List Recipe) (c : Constraints) (days : Int)
    (mealsArg : MealsArg) (cont : Bool) (pantry : Store) (plan0 : Plan)
    (calcLog0 : List CalcEntry) : APResult × Store :=
  let meals := slot_names mealsArg
  let plan := if cont then plan0 else []
  let startAt := start_day cont plan
  let targetDays := (List.range days.toNat).map fun i => startAt + (i : Int)
  let cands := eligible_candidates catalog c
  let shadow := if c.mode = "pantry-first-strict" then shadow_snapshot pantry else []
  let onceList := if shadow ≠ [] then coverable_once_sorted cands shadow else []
  let st0 : LoopSt := ⟨pantry, shadow, onceNames onceList, none, 0, calcLog0⟩
  auto_plan_assemble days startAt meals.length
    (fillDays c cands onceList cont meals targetDays plan st0)

/-! ### `meal_plan_tools` — shopping list -/

/-- Last catalog recipe whose lowered name matches (the `recipes` dict in
`_collect_plan_requirements` is keyed by lowered name, later entries
overwriting earlier ones). -/
def lookupRecipeLower (catalog : List Recipe) (dish : String) : Option Recipe :=
  catalog.reverse.find? fun r => lowerStr r.name == lowerStr dish

/-- One ingredient accumulation step of `_collect_plan_requirements`. -/
def needs_add_ing (need : List ((String × String) × Int)) (ing : Ingredient) :
    List ((String × String) × Int) :=
  let item := canonical_key ing.item
  let unit := (canonical_and_unit item (if ing.unit = "" then "count" else ing.unit)).2
  let qty := ing.quantity
  if qty ≤ 0 ∨ item = "" then need
  else sset need (item, unit) (sgetD need (item, unit) + qty)

/-- One slot of `_collect_plan_requirements`: dishes missing from the
catalog (the empty slot value included) contribute nothing. -/
def needs_add_slot (catalog : List Recipe) (need : List ((String × String) × Int))
    (slot : String × String) : List ((String × String) × Int) :=
  match lookupRecipeLower catalog slot.2 with
  | none => need
  | some rec => rec.ingredients.foldl needs_add_ing need

/-- `meal_plan_tools._collect_plan_requirements`: total needed quantity per
canonical `(item, unit)` over every slot of the plan whose dish resolves in
the catalog. -/
def collect_plan_requirements (catalog : List Recipe) (plan : Plan) :
    List ((String × String) × Int) :=
  plan.foldl (fun need dayRow => dayRow.2.foldl (needs_add_slot catalog) need) []

/-- `meal_plan_tools._find_matching_key`: first raw ledger key whose split
base/unit canonicalize to the requested pair. -/
def find_matching_key (pantry : Store) (item unit : String) : Option String :=
  let cu := canonical_and_unit item (if unit = "" then "count" else unit)
  (pantry.find? fun kv =>
    let bu := splitPantryKey kv.1
    canonical_key bu.1 == cu.1 && normalize_unit bu.2 == cu.2).map (·.1)

/-- On-hand amount `_quantity_shopping_deficits` reads for one canonical
pair: the first matching raw key's value, else 0. -/
def pantry_have (pantry : Store) (item unit : String) : Int :=
  match find_matching_key pantry item unit with
  | some k => dgetD pantry k
  | none => 0

structure Deficit where
  item : String
  unit : String
  need : Int
  onHand : Int
  buy : Int
  deriving DecidableEq, Repr

/-- The per-pair decision of `_quantity_shopping_deficits`: a record exactly
when the positive part of `need − have` is nonzero. -/
def deficit_of (pantry : Store) (kv : (String × String) × Int) : Option Deficit :=
  let hv := pantry_have pantry kv.1.1 kv.1.2
  let buy := max 0 (kv.2 - hv)
  if 0 < buy then some ⟨kv.1.1, kv.1.2, kv.2, hv, buy⟩ else none

/-- Sort key `(unit, item)` of the deficit list. -/
def defLe (a b : Deficit) : Bool :=
  if a.unit = b.unit then (a.item == b.item || pyStrLt a.item b.item)
  else pyStrLt a.unit b.unit

/-- `meal_plan_tools._quantity_shopping_deficits`: one record per canonical
pair whose total need exceeds the real ledger's on-hand amount. -/
def quantity_shopping_deficits (catalog : List Recipe) (pantry : Store)
    (plan : Plan) : List Deficit :=
  let needs := collect_plan_requirements catalog plan
  let defs := needs.foldl
    (fun acc kv =>
      let hv := pantry_have pantry kv.1.1 kv.1.2
      let buy := max 0 (kv.2 - hv)
      if 0 < buy then acc ++ [⟨kv.1.1, kv.1.2, kv.2, hv, buy⟩] else acc)
    []
  stableSortBy defLe defs

/-! ### `meal_plan_tools.cook_meal` -/

structure CookAcc where
  store : Store
  deducted : List String
  missing : List String
  deriving DecidableEq, Repr

/-- One ingredient line of `cook_meal`: snapshot the pre-mutation amount at
the canonical ledger key, deduct through `_PantryDB.remove`
(`_deduct_one`), and report `used = min(before, needed)` and
`missing = needed − used`. -/
def cook_ingredient (rules : List AltRule) (acc : CookAcc) (ing : Ingredient) :
    CookAcc :=
  let item := stripStr ing.item
  let needQty := ing.quantity
  let unit := normalize_unit ing.unit
  if item = "" ∨ needQty ≤ 0 then acc
  else
    let nameC := canon_item item
    let unitN := norm_unit unit
    let key := nameC ++ " (" ++ unitN ++ ")"
    let before := dgetD acc.store key
    let store' := (premove rules acc.store nameC (some needQty) unitN).2
    let used := min before needQty
    { store := store'
      deducted :=
        if 0 < used then acc.deducted ++ [toString used ++ " " ++ unitN ++ " " ++ item]
        else acc.deducted
      missing :=
        if used < needQty then
          acc.missing ++ [toString (needQty - used) ++ " " ++ unitN ++ " " ++ item]
        else acc.missing }

/-- The ingredient loop of `cook_meal` over a resolved recipe. -/
def cook_lines (rules : List AltRule) (store : Store) (ings : List Ingredient) :
    CookAcc :=
  ings.foldl (cook_ingredient rules) ⟨store, [], []⟩

/-- `meal_plan_tools._load_recipe_by_name`: first case-insensitive name
match. -/
def load_recipe_by_name (catalog : List Recipe) (name : String) : Option Recipe :=
  catalog.find? fun r => lowerStr (stripStr r.name) == lowerStr (stripStr name)

/-- `cook_meal` on an explicit dish name (slot resolution aside): `none`
when the recipe is unknown. -/
def cook_meal_dish (catalog : List Recipe) (rules : List AltRule) (store : Store)
    (dish : String) : Option CookAcc :=
  (load_recipe_by_name catalog dish).map fun r => cook_lines rules store r.ingredients

/-! ### Invariants and observation functions used by the theorems -/

/-- Every stored quantity is strictly positive (sparse, never-negative
ledger). -/
def allPos (s : Store) : Prop := ∀ p ∈ s, 0 < p.2

def keys {κ ν : Type} (l : List (κ × ν)) : List κ := l.map Prod.fst

/-- Well-formed ledger: positive quantities and (dict-given) unique keys. -/
def wfStore (s : Store) : Prop := allPos s ∧ (keys s).Nodup

instance (s : Store) : Decidable (wfStore s) := by
  unfold wfStore allPos
  infer_instance

/-- Dishes of one plan row read in the given meal order, empty slots
skipped. -/
def scanRow (row : Row) (meals : List String) : List String :=
  meals.filterMap fun m =>
    match rowGet row m with
    | some d => if d = "" then none else some d
    | none => none

/-- Dishes of a plan in day-major (plan insertion order) / meal-minor order,
empty slots skipped.  For a fresh (non-continue) `auto_plan` call the plan's
entries are created in ascending day order, so this is the claim's scan
order. -/
def scanPlanRows (p : Plan) (meals : List String) : List String :=
  p.flatMap fun e => scanRow e.2 meals

/-- No two adjacent entries equal (case-insensitively): the
no-immediate-repeat property. -/
def noConsecDup (dishes : List String) : Prop :=
  List.Chain' (· ≠ ·) (dishes.map lowerStr)

/-- Stability conditions under which a second `canonical_key` application
acts as the identity: the canonical form is preclean-stable, splits into at
most two nonempty tokens that are neither droppable descriptors nor changed
by spelling folding, and its head token is already singular. -/
def canonFixedTokens (y : List Char) : Prop :=
  precleanL y = y ∧ stripL y = y ∧ joinSp (splitWsL y) = y ∧
  splitWsL y ≠ [] ∧ (splitWsL y).length ≤ 2 ∧
  (∀ t ∈ splitWsL y, t ≠ [] ∧ !(dropDescriptors.contains t) ∧ foldTok t = t) ∧
  singularFallbackL ((splitWsL y).getD ((splitWsL y).length - 1) []) =
    (splitWsL y).getD ((splitWsL y).length - 1) []

instance : DecidablePred canonFixedTokens := by
  unfold canonFixedTokens
  intro y
  exact instDecidableAnd

/-! ### Concrete fixtures for the testable-property scenarios -/

/-- The spec's mirror rule `{item: leafybunch, from: count, to: g,
factor: 125, round: 10}`. -/
def leafyRule : AltRule := ⟨"leafybunch", "count", "g", 125, some 10⟩

/-- Dish A of the scarcity scenario: needs 100 g rice. -/
def dishA : Recipe := ⟨"A", "", "", 0, 0, [⟨"rice", 100, "g"⟩]⟩

/-- Dish B of the scarcity scenario: needs 200 g rice. -/
def dishB : Recipe := ⟨"B", "", "", 0, 0, [⟨"rice", 200, "g"⟩]⟩

/-- Constraints `pantry-first-strict`, repeats allowed, no filters. -/
def strictCons : Constraints := ⟨"pantry-first-strict", true, none, none, none⟩

/-- The scarcity-scenario call: 3 days, 1 meal per day, fresh, 150 g rice. -/
def scarcityRun : APResult × Store :=
  auto_plan [dishA, dishB] strictCons 3 (.int 1) false [("rice (g)", 150)] [] []

/-- A single no-ingredient dish, for the repeat-rule scenario. -/
def dishX : Recipe := ⟨"X", "", "", 0, 0, []⟩

/-- Constraints `freeform` with repeats disallowed. -/
def freeNoRep : Constraints := ⟨"freeform", false, none, none, none⟩

/-- First call of the repeat scenario: fresh, one day, one meal. -/
def repeatRun1 : APResult :=
  (auto_plan [dishX] freeNoRep 1 (.int 1) false [] [] []).1

/-- Second call of the repeat scenario: `continue = true` over the first
call's plan. -/
def repeatRun2 : APResult :=
  (auto_plan [dishX] freeNoRep 1 (.int 1) true [] repeatRun1.plan repeatRun1.calcLog).1

/-- A dish needing 150 g rice; two filled slots of it need 300 g total. -/
def dishC : Recipe := ⟨"C", "", "", 0, 0, [⟨"rice", 150, "g"⟩]⟩

/-- A dish needing 100 g spinach, for the cook partial-coverage scenario. -/
def dishD : Recipe := ⟨"D", "", "", 0, 0, [⟨"spinach", 100, "g"⟩]⟩

/-! ## Association-list (Python dict) lemmas -/

theorem alget_cons {κ ν : Type} [DecidableEq κ] (p : κ × ν) (ps : List (κ × ν)) (k : κ) :
    alget (p :: ps) k = if p.1 = k then some p.2 else alget ps k := by
  by_cases h : p.1 = k
  · rw [alget, List.find?_cons_of_pos _ (by simpa using h), if_pos h]
    rfl
  · rw [alget, List.find?_cons_of_neg _ (by simpa using h), if_neg h]
    rfl

theorem mem_of_alget_eq_some {κ ν : Type} [DecidableEq κ] {l : List (κ × ν)} {k : κ} {v : ν}
    (h : alget l k = some v) : (k, v) ∈ l := by
  unfold alget at h
  cases hf : List.find? (fun p => decide (p.1 = k)) l with
  | none => rw [hf] at h; cases h
  | some p =>
    rw [hf] at h
    have hm := List.mem_of_find?_eq_some hf
    have hk : p.1 = k := by simpa using List.find?_some hf
    have hv : p.2 = v := by simpa using h
    obtain ⟨a, b⟩ := p
    cases hk
    cases hv
    exact hm

theorem alget_eq_none_iff {κ ν : Type} [DecidableEq κ] {l : List (κ × ν)} {k : κ} :
    alget l k = none ↔ k ∉ keys l := by
  constructor
  · intro h hk
    rw [keys, List.mem_map] at hk
    obtain ⟨p, hp, hpk⟩ := hk
    rw [alget, Option.map_eq_none'] at h
    have := List.find?_eq_none.mp h p hp
    simp [hpk] at this
  · intro h
    rw [alget, Option.map_eq_none', List.find?_eq_none]
    intro p hp
    simp only [decide_eq_true_eq]
    intro hpk
    exact h (by rw [keys, List.mem_map]; exact ⟨p, hp, hpk⟩)

theorem alget_alset_self {κ ν : Type} [DecidableEq κ] (l : List (κ × ν)) (k : κ) (v : ν) :
    alget (alset l k v) k = some v := by
  induction l with
  | nil => simp [alset, alget_cons]
  | cons p ps ih =>
    by_cases h : p.1 = k
    · simp [alset, h, alget_cons]
    · simp [alset, h, alget_cons, ih]

theorem alget_alset_ne {κ ν : Type} [DecidableEq κ] (l : List (κ × ν)) {k k' : κ} (v : ν)
    (h : k' ≠ k) : alget (alset l k v) k' = alget l k' := by
  have h' : ¬ (k = k') := fun hk => h hk.symm
  induction l with
  | nil => simp [alset, alget_cons, h']
  | cons p ps ih =>
    by_cases hp : p.1 = k
    · rw [alset, if_pos hp, alget_cons, alget_cons, hp, if_neg h', if_neg h']
    · rw [alset, if_neg hp, alget_cons, alget_cons, ih]

theorem alget_aldel_ne {κ ν : Type} [DecidableEq κ] (l : List (κ × ν)) {k k' : κ}
    (h : k' ≠ k) : alget (aldel l k) k' = alget l k' := by
  induction l with
  | nil => rfl
  | cons p ps ih =>
    by_cases hp : p.1 = k
    · rw [aldel, if_pos hp, alget_cons, hp, if_neg (fun hk => h hk.symm)]
    · rw [aldel, if_neg hp, alget_cons, alget_cons, ih]

theorem aldel_sublist {κ ν : Type} [DecidableEq κ] (l : List (κ × ν)) (k : κ) :
    (aldel l k).Sublist l := by
  induction l with
  | nil => exact List.Sublist.refl _
  | cons p ps ih =>
    by_cases hp : p.1 = k
    · rw [aldel, if_pos hp]
      exact List.sublist_cons_self p ps
    · rw [aldel, if_neg hp]
      exact ih.cons₂ p

theorem alget_aldel_self {κ ν : Type} [DecidableEq κ] {l : List (κ × ν)} {k : κ}
    (h : (keys l).Nodup) : alget (aldel l k) k = none := by
  induction l with
  | nil => rfl
  | cons p ps ih =>
    rw [keys, List.map_cons, List.nodup_cons] at h
    by_cases hp : p.1 = k
    · rw [aldel, if_pos hp, alget_eq_none_iff]
      rw [hp] at h
      exact h.1
    · rw [aldel, if_neg hp, alget_cons, if_neg hp]
      exact ih h.2

theorem mem_alset {κ ν : Type} [DecidableEq κ] {l : List (κ × ν)} {k : κ} {v : ν} {q : κ × ν}
    (h : q ∈ alset l k v) : q = (k, v) ∨ q ∈ l := by
  induction l with
  | nil => simpa [alset] using h
  | cons p ps ih =>
    by_cases hp : p.1 = k
    · rw [alset, if_pos hp] at h
      rcases List.mem_cons.mp h with h1 | h1
      · exact Or.inl h1
      · exact Or.inr (List.mem_cons_of_mem _ h1)
    · rw [alset, if_neg hp] at h
      rcases List.mem_cons.mp h with h1 | h1
      · exact Or.inr (h1 ▸ List.mem_cons_self p ps)
      · rcases ih h1 with h2 | h2
        · exact Or.inl h2
        · exact Or.inr (List.mem_cons_of_mem _ h2)

theorem mem_keys_alset {κ ν : Type} [DecidableEq κ] {l : List (κ × ν)} {k a : κ} {v : ν}
    (h : a ∈ keys (alset l k v)) : a = k ∨ a ∈ keys l := by
  rw [keys, List.mem_map] at h
  obtain ⟨p, hp, hpa⟩ := h
  rcases mem_alset hp with h1 | h1
  · left
    rw [← hpa, h1]
  · right
    rw [keys, List.mem_map]
    exact ⟨p, h1, hpa⟩

theorem nodup_keys_alset {κ ν : Type} [DecidableEq κ] {l : List (κ × ν)} (k : κ) (v : ν)
    (h : (keys l).Nodup) : (keys (alset l k v)).Nodup := by
  induction l with
  | nil => simp [alset, keys]
  | cons p ps ih =>
    rw [keys, List.map_cons, List.nodup_cons] at h
    by_cases hp : p.1 = k
    · rw [alset, if_pos hp, keys, List.map_cons, List.nodup_cons]
      exact ⟨by rw [← hp]; exact h.1, h.2⟩
    · rw [alset, if_neg hp, keys, List.map_cons, List.nodup_cons]
      refine ⟨fun hmem => ?_, ih h.2⟩
      rcases mem_keys_alset hmem with h1 | h1
      · exact hp h1
      · exact h.1 h1

/-! ## Ledger well-formedness and key-local behaviour -/

theorem bump_wf {s : Store} (item unit : String) (δ : Int) (h : wfStore s) :
    wfStore (bump s item unit δ) := by
  unfold bump
  by_cases hnv : dgetD s (pkey item unit) + δ ≤ 0
  · rw [if_pos hnv]
    exact ⟨fun p hp => h.1 p ((aldel_sublist s _).subset hp),
      ((aldel_sublist s _).map Prod.fst).nodup h.2⟩
  · rw [if_neg hnv]
    refine ⟨fun p hp => ?_, nodup_keys_alset _ _ h.2⟩
    rcases mem_alset hp with h1 | h1
    · rw [h1]
      omega
    · exact h.1 p h1

theorem set_exact_wf {s : Store} (item unit : String) (q : Int) (h : wfStore s) :
    wfStore (set_exact s item unit q) := by
  unfold set_exact
  by_cases hq : q ≤ 0
  · rw [if_pos hq]
    exact ⟨fun p hp => h.1 p ((aldel_sublist s _).subset hp),
      ((aldel_sublist s _).map Prod.fst).nodup h.2⟩
  · rw [if_neg hq]
    refine ⟨fun p hp => ?_, nodup_keys_alset _ _ h.2⟩
    rcases mem_alset hp with h1 | h1
    · rw [h1]
      omega
    · exact h.1 p h1

theorem foldl_preserve {α β : Type} {P : β → Prop} {f : β → α → β}
    (hf : ∀ st a, P st → P (f st a)) :
    ∀ (l : List α) (s : β), P s → P (l.foldl f s) := by
  intro l
  induction l with
  | nil => intro s hs; exact hs
  | cons a l ih => intro s hs; exact ih _ (hf s a hs)

theorem mirror_delta_wf (rules : List AltRule) {s : Store} (item unitFrom : String)
    (δ : Int) (h : wfStore s) : wfStore (mirror_delta rules s item unitFrom δ) := by
  unfold mirror_delta
  by_cases hδ : δ = 0
  · rwa [if_pos hδ]
  · rw [if_neg hδ]
    refine foldl_preserve (fun st r hst => ?_) _ _ h
    by_cases hd : round_mul_step δ r.factor r.step ≠ 0
    · rw [if_pos hd]
      exact bump_wf _ _ _ hst
    · rwa [if_neg hd]

theorem mirror_set_wf (rules : List AltRule) {s : Store} (item unitFrom : String)
    (q : Int) (h : wfStore s) : wfStore (mirror_set rules s item unitFrom q) := by
  unfold mirror_set
  exact foldl_preserve (fun st r hst => set_exact_wf _ _ _ hst) _ _ h

theorem padd_wf (rules : List AltRule) {s : Store} (item : String) (q : Int)
    (unit : String) (h : wfStore s) : wfStore (padd rules s item q unit).2 := by
  unfold padd
  by_cases hq : q ≤ 0
  · rwa [if_pos hq]
  · rw [if_neg hq]
    exact mirror_delta_wf _ _ _ _ (bump_wf _ _ _ h)

theorem pupdate_wf (rules : List AltRule) {s : Store} (item : String) (q : Int)
    (unit : String) (h : wfStore s) : wfStore (pupdate rules s item q unit).2 := by
  unfold pupdate
  by_cases hq : q < 0
  · rwa [if_pos hq]
  · rw [if_neg hq]
    exact mirror_set_wf _ _ _ _ (set_exact_wf _ _ _ h)

theorem premove_wf (rules : List AltRule) {s : Store} (item : String) (q : Option Int)
    (unit : String) (h : wfStore s) : wfStore (premove rules s item q unit).2 := by
  unfold premove
  dsimp only
  by_cases h0 : dget s (pkey (canon_item item) (norm_unit unit)) = none
  · rwa [if_pos h0]
  · rw [if_neg h0]
    cases q with
    | none => exact mirror_delta_wf _ _ _ _ (bump_wf _ _ _ h)
    | some n =>
      dsimp only
      by_cases hn : n ≤ 0
      · rwa [if_pos hn]
      · rw [if_neg hn, apply_ite Prod.snd, ite_self]
        exact mirror_delta_wf _ _ _ _ (bump_wf _ _ _ h)

theorem bump_dget_self {s : Store} (item unit : String) (δ : Int)
    (hnd : (keys s).Nodup) :
    dget (bump s item unit δ) (pkey item unit) =
      if dgetD s (pkey item unit) + δ ≤ 0 then none
      else some (dgetD s (pkey item unit) + δ) := by
  unfold bump
  by_cases hnv : dgetD s (pkey item unit) + δ ≤ 0
  · rw [if_pos hnv, if_pos hnv]
    exact alget_aldel_self hnd
  · rw [if_neg hnv, if_neg hnv]
    exact alget_alset_self _ _ _

theorem bump_dget_other {s : Store} (item unit : String) (δ : Int) {K : String}
    (hk : K ≠ pkey item unit) : dget (bump s item unit δ) K = dget s K := by
  unfold bump
  by_cases hnv : dgetD s (pkey item unit) + δ ≤ 0
  · rw [if_pos hnv]
    exact alget_aldel_ne _ hk
  · rw [if_neg hnv]
    exact alget_alset_ne _ _ hk

theorem mirror_delta_dget_other (rules : List AltRule) {s : Store}
    (item unitFrom : String) (δ : Int) {K : String}
    (hr : ∀ r ∈ alt_transforms_for rules item unitFrom,
      pkey item (norm_unit r.toUnit) ≠ K) :
    dget (mirror_delta rules s item unitFrom δ) K = dget s K := by
  unfold mirror_delta
  by_cases hδ : δ = 0
  · rw [if_pos hδ]
  · rw [if_neg hδ]
    revert s
    generalize alt_transforms_for rules item unitFrom = rs at hr
    induction rs with
    | nil => intro s; rfl
    | cons r rs ih =>
      intro s
      rw [List.foldl_cons]
      rw [ih (fun r' hr' => hr r' (List.mem_cons_of_mem _ hr'))]
      by_cases hd : round_mul_step δ r.factor r.step ≠ 0
      · rw [if_pos hd]
        exact bump_dget_other _ _ _ (Ne.symm (hr r (List.mem_cons_self _ _)))
      · rw [if_neg hd]

/-- Behaviour of `remove` with an explicit quantity at its own canonical
key: absent keys stay absent, present values are decremented, floored at
zero with the entry deleted. -/
theorem premove_some_dget_self (rules : List AltRule) (s : Store) (item0 : String)
    (q : Int) (unit0 : String) (hwf : wfStore s)
    (hmir : ∀ r ∈ alt_transforms_for rules (canon_item item0) (norm_unit unit0),
      pkey (canon_item item0) (norm_unit r.toUnit) ≠
        pkey (canon_item item0) (norm_unit unit0))
    (hq : 0 < q) :
    dget (premove rules s item0 (some q) unit0).2
        (pkey (canon_item item0) (norm_unit unit0)) =
      match dget s (pkey (canon_item item0) (norm_unit unit0)) with
      | none => none
      | some v => if v ≤ q then none else some (v - q) := by
  cases hdg : dget s (pkey (canon_item item0) (norm_unit unit0)) with
  | none =>
    unfold premove
    dsimp only
    rw [if_pos hdg]
    exact hdg
  | some v =>
    unfold premove
    dsimp only
    rw [if_neg (by rw [hdg]; exact fun h => Option.noConfusion h), if_neg (by omega)]
    have hD : dgetD s (pkey (canon_item item0) (norm_unit unit0)) = v := by
      rw [dgetD, hdg]
      rfl
    rw [apply_ite Prod.snd, ite_self]
    rw [mirror_delta_dget_other _ _ _ _ hmir]
    rw [bump_dget_self _ _ _ hwf.2, hD]
    by_cases hvq : v ≤ q
    · rw [if_pos (by omega), if_pos hvq]
    · rw [if_neg (by omega), if_neg hvq]
      congr 1
      omega

/-- Behaviour of `remove` with an absent quantity at its own canonical key:
the whole entry is deleted. -/
theorem premove_none_dget_self (rules : List AltRule) (s : Store) (item0 unit0 : String)
    (hwf : wfStore s)
    (hmir : ∀ r ∈ alt_transforms_for rules (canon_item item0) (norm_unit unit0),
      pkey (canon_item item0) (norm_unit r.toUnit) ≠
        pkey (canon_item item0) (norm_unit unit0)) :
    dget (premove rules s item0 none unit0).2
      (pkey (canon_item item0) (norm_unit unit0)) = none := by
  cases hdg : dget s (pkey (canon_item item0) (norm_unit unit0)) with
  | none =>
    unfold premove
    dsimp only
    rw [if_pos hdg]
    exact hdg
  | some v =>
    unfold premove
    dsimp only
    rw [if_neg (by rw [hdg]; exact fun h => Option.noConfusion h)]
    have hD : dgetD s (pkey (canon_item item0) (norm_unit unit0)) = v := by
      rw [dgetD, hdg]
      rfl
    rw [mirror_delta_dget_other _ _ _ _ hmir]
    rw [bump_dget_self _ _ _ hwf.2, hD]
    rw [if_pos (by omega)]

/-! ## Claim theorems: unit canonicalization and the ledger -/

/-- C1: unit canonicalization renames the label only.  `"kg"` folds to the
`g` family with the quantity left untouched (adding 1 kg stores `1` at
`rice (g)`, never `1000`), and the spelling `"kilo"` is not recognized at
all (family `count`, pantry unit label kept verbatim).  No quantity scaling
exists anywhere on the canonicalization path. -/
theorem C1_unit_label_renamed_without_scale :
    canonical_and_unit "rice" "kg" = ("rice", "g") ∧
    canonical_and_unit "rice" "kilo" = ("rice", "count") ∧
    norm_unit "kilo" = "kilo" ∧
    (padd [] [] "rice" 1 "kg").2 = [("rice (g)", 1)] ∧
    (padd [] [] "rice" 1000 "g").2 = [("rice (g)", 1000)] := by
  decide

/-- C3 counterexample: after `Add(leafybunch, 2, count)` (mirror 250 g),
`Remove(leafybunch, 1, count)` leaves the gram mirror at `130`, not the
claimed `125`: the mirror applies the rounded delta
`round(-125 / 10) * 10 = -120` (Python rounds -12.5 half-to-even). -/
theorem C3_remove_mirror_counterexample :
    dget (premove [leafyRule] (padd [leafyRule] [] "leafybunch" 2 "count").2
        "leafybunch" (some 1) "count").2 "leafybunch (g)" = some 130 ∧
    ¬ dget (premove [leafyRule] (padd [leafyRule] [] "leafybunch" 2 "count").2
        "leafybunch" (some 1) "count").2 "leafybunch (g)" = some 125 := by
  decide

/-- C3 amended: with the rule `{leafybunch, count → g, ×125, round 10}`,
`Add(leafybunch, 2, count)` yields count 2 and gram mirror 250; the
subsequent `Remove(leafybunch, 1, count)` yields count 1 and gram mirror
130 (the −125 g delta rounds to −120 at step 10 under round-half-to-even). -/
theorem C3_mirror_delta_behaviour :
    (padd [leafyRule] [] "leafybunch" 2 "count").2 =
      [("leafybunch (count)", 2), ("leafybunch (g)", 250)] ∧
    (premove [leafyRule] (padd [leafyRule] [] "leafybunch" 2 "count").2
        "leafybunch" (some 1) "count").2 =
      [("leafybunch (count)", 1), ("leafybunch (g)", 130)] := by
  decide

/-- C10: removing a canonical key that is not in the ledger returns the
not-found message and leaves the store exactly as it was — no entry is
created, deleted or modified and no mirror delta fires. -/
theorem C10_remove_nonexistent_noop (rules : List AltRule) (s : Store)
    (item : String) (qty : Option Int) (unit : String)
    (h : dget s (pkey (canon_item item) (norm_unit unit)) = none) :
    premove rules s item qty unit =
      ("⚠️ " ++ canon_item item ++ " (" ++ norm_unit unit ++ ") not found.", s) := by
  unfold premove
  rw [if_pos h]

/-- C10 witness: removing 5 g of rice from an empty ledger. -/
theorem C10_remove_nonexistent_noop_witness :
    dget ([] : Store) (pkey (canon_item "rice") (norm_unit "g")) = none ∧
    premove [leafyRule] [] "rice" (some 5) "g" = ("⚠️ rice (g) not found.", []) :=
  ⟨by decide,
    (C10_remove_nonexistent_noop [leafyRule] [] "rice" (some 5) "g" (by decide)).trans
      (by decide)⟩

/-- C4: on a well-formed ledger every public mutation keeps all stored
quantities strictly positive (zeroed entries are deleted, nothing negative
or zero is ever stored), and — as long as no mirror rule maps the mutated
`(item, unit)` back onto its own key — removing at least the on-hand amount
deletes the entry, as does removing with an absent quantity. -/
theorem C4_ledger_never_negative (rules : List AltRule) (s : Store)
    (item unit : String) (q : Int) (hwf : wfStore s) :
    (wfStore (padd rules s item q unit).2 ∧
     wfStore (pupdate rules s item q unit).2 ∧
     wfStore (premove rules s item (some q) unit).2 ∧
     wfStore (premove rules s item none unit).2) ∧
    ((∀ r ∈ alt_transforms_for rules (canon_item item) (norm_unit unit),
        pkey (canon_item item) (norm_unit r.toUnit) ≠
          pkey (canon_item item) (norm_unit unit)) →
      (dgetD s (pkey (canon_item item) (norm_unit unit)) ≤ q →
        dget (premove rules s item (some q) unit).2
          (pkey (canon_item item) (norm_unit unit)) = none) ∧
      dget (premove rules s item none unit).2
        (pkey (canon_item item) (norm_unit unit)) = none) := by
  refine ⟨⟨padd_wf _ _ _ _ hwf, pupdate_wf _ _ _ _ hwf, premove_wf _ _ _ _ hwf,
    premove_wf _ _ _ _ hwf⟩,
    fun hmir => ⟨fun hq => ?_, premove_none_dget_self _ _ _ _ hwf hmir⟩⟩
  cases hdg : dget s (pkey (canon_item item) (norm_unit unit)) with
  | none =>
    unfold premove
    dsimp only
    rw [if_pos hdg]
    exact hdg
  | some v =>
    have hv : 0 < v := hwf.1 _ (mem_of_alget_eq_some hdg)
    have hD : dgetD s (pkey (canon_item item) (norm_unit unit)) = v := by
      rw [dgetD, hdg]
      rfl
    rw [hD] at hq
    rw [premove_some_dget_self rules s item q unit hwf hmir (by omega), hdg]
    dsimp only
    rw [if_pos hq]

/-- C4 witness: removing 5 of 2 leafybunch counts deletes the entry. -/
theorem C4_ledger_never_negative_witness :
    wfStore [("leafybunch (count)", 2)] ∧
    dget (premove [leafyRule] [("leafybunch (count)", 2)] "leafybunch"
        (some 5) "count").2 (pkey (canon_item "leafybunch") (norm_unit "count")) = none :=
  ⟨by decide,
    ((C4_ledger_never_negative [leafyRule] [("leafybunch (count)", 2)] "leafybunch"
        "count" 5 (by decide)).2 (by decide)).1 (by decide)⟩

/-! ## Claim theorems: the scheduler scenario (C2) -/

/-- C2 counterexample: in the scarcity scenario (A needs 100 g rice, B needs
200 g, pantry 150 g, 3 days × 1 meal, strict mode) the stop report gives
`total_attempted = 2` — the attempted-day count stops at the failing day —
not the claimed 3. -/
theorem C2_reported_attempted_counterexample :
    scarcityRun.1.filled = 1 ∧ scarcityRun.1.reportedAttempted = 2 ∧
    scarcityRun.1.reportedAttempted ≠ 3 := by
  decide

/-- C2 amended: the scarcity scenario assigns A on day 1, finds nothing
feasible on day 2 and stops immediately, leaving day 2 unfilled and day 3
untouched, retaining day 1; the report is `filled 1 of 2 attempted slots`
(attempted counts only the days up to the stop), and the durable pantry is
untouched. -/
theorem C2_strict_stop_behaviour :
    scarcityRun.1.plan = [("Day1", [("Dinner", "A")]), ("Day2", [("Dinner", "")])] ∧
    scarcityRun.1.filled = 1 ∧ scarcityRun.1.reportedAttempted = 2 ∧
    scarcityRun.1.stopped = true ∧ scarcityRun.2 = [("rice (g)", 150)] := by
  decide

/-! ## Claim theorems: canonical_key idempotence (C5 counterexample) -/

/-- C5 counterexample: `canonical_key` is not idempotent.  `"glasses"`
canonicalizes to `"glass"`, but a second application strips a further `s`
and yields `"glas"`. -/
theorem C5_canonical_key_not_idempotent :
    canonical_key "glasses" = "glass" ∧
    canonical_key (canonical_key "glasses") = "glas" ∧
    canonical_key (canonical_key "glasses") ≠ canonical_key "glasses" := by
  decide

theorem map_id_of_fix {α : Type} (f : α → α) :
    ∀ l : List α, (∀ t ∈ l, f t = t) → l.map f = l := by
  intro l
  induction l with
  | nil => intro _; rfl
  | cons a l ih =>
    intro h
    rw [List.map_cons, h a (List.mem_cons_self a l), ih (fun t ht => h t (List.mem_cons_of_mem _ ht))]

/-- A list of characters satisfying the canonical-form stability conditions
is a fixed point of `canonKeyL`. -/
theorem canonKeyL_fixed (y : List Char) (h : canonFixedTokens y) : canonKeyL y = y := by
  obtain ⟨hpre, hstrip, hjoin, hne, hlen, htoks, hsing⟩ := h
  have hyne : y.isEmpty = false := by
    cases y with
    | nil => exact absurd rfl hne
    | cons c cs => rfl
  have hfilter : (splitWsL y).filter (fun t => !(dropDescriptors.contains t)) = splitWsL y :=
    List.filter_eq_self.mpr fun t ht => (htoks t ht).2.1
  have hmap : ((splitWsL y).filter (fun t => !(dropDescriptors.contains t))).map foldTok
      = splitWsL y := by
    rw [hfilter]
    exact map_id_of_fix _ _ fun t ht => (htoks t ht).2.2
  unfold canonKeyL
  simp only [hpre, hyne, Bool.false_eq_true, if_false, hmap]
  cases hts : splitWsL y with
  | nil => exact absurd hts hne
  | cons t ts =>
    cases ts with
    | nil =>
      rw [hts] at hsing hjoin
      have hs1 : singularFallbackL t = t := hsing
      show singularFallbackL t = y
      rw [hs1]
      exact hjoin
    | cons t2 ts2 =>
      cases ts2 with
      | nil =>
        rw [hts] at hsing hjoin
        have hs2 : singularFallbackL t2 = t2 := hsing
        show stripL (t ++ ' ' :: singularFallbackL t2) = y
        rw [hs2]
        have hj : t ++ ' ' :: t2 = y := hjoin
        rw [hj, hstrip]
      | cons t3 ts3 =>
        rw [hts] at hlen
        simp at hlen

/-- C5 amended: `canonical_key` is idempotent on every input whose
canonical form is empty (as for a bare droppable descriptor such as
`large`) or fully stable — preclean-stable, at most two nonempty tokens,
none a droppable descriptor or changed by spelling folding, and a head
token already singular.  This condition is sufficient for idempotence, not
claimed necessary.  (In general `canonical_key` is not idempotent: see the
`glasses` counterexample.) -/
theorem C5_canonical_key_idempotent_on_stable (x : String)
    (h : canonKeyL x.data = [] ∨ canonFixedTokens (canonKeyL x.data)) :
    canonical_key (canonical_key x) = canonical_key x := by
  have hfix : canonKeyL (canonKeyL x.data) = canonKeyL x.data := by
    rcases h with he | hs
    · rw [he]
      decide
    · exact canonKeyL_fixed _ hs
  show String.mk (canonKeyL (String.mk (canonKeyL x.data)).data) = String.mk (canonKeyL x.data)
  rw [show (String.mk (canonKeyL x.data)).data = canonKeyL x.data from rfl, hfix]

/-- C5 amended witness: `green chili` is stable and re-canonicalizing it
returns it unchanged; `large` canonicalizes to the empty key, which is
likewise a fixed point. -/
theorem C5_canonical_key_idempotent_on_stable_witness :
    (canonFixedTokens (canonKeyL ("green chili" : String).data) ∧
      canonical_key (canonical_key "green chili") = canonical_key "green chili") ∧
    (canonKeyL ("large" : String).data = [] ∧
      canonical_key (canonical_key "large") = canonical_key "large") :=
  ⟨⟨by decide, C5_canonical_key_idempotent_on_stable "green chili" (Or.inr (by decide))⟩,
   ⟨by decide, C5_canonical_key_idempotent_on_stable "large" (Or.inl (by decide))⟩⟩

/-! ## Idempotence of the pantry normalizers -/

theorem char_toNat_ofNat (n : Nat) (h : n < 55296) : (Char.ofNat n).toNat = n := by
  have hv : Nat.isValidChar n := Or.inl h
  simp [Char.ofNat, Char.ofNatAux, Char.toNat, hv]
  rfl

theorem lowerCh_idem (c : Char) : lowerCh (lowerCh c) = lowerCh c := by
  unfold lowerCh
  by_cases h : 65 ≤ c.toNat ∧ c.toNat ≤ 90
  · rw [if_pos h]
    have ht : (Char.ofNat (c.toNat + 32)).toNat = c.toNat + 32 :=
      char_toNat_ofNat _ (by omega)
    rw [if_neg (by rw [ht]; omega)]
  · rw [if_neg h, if_neg h]

theorem spaceCode_false (m : Nat) (hm : 33 ≤ m) :
    ((m == 32 || m == 9 || m == 10 || m == 13 || m == 11 || m == 12) : Bool) = false := by
  simp only [Bool.or_eq_false_iff, beq_eq_false_iff_ne]
  omega

theorem isSpaceCh_lowerCh (c : Char) : isSpaceCh (lowerCh c) = isSpaceCh c := by
  unfold lowerCh
  by_cases h : 65 ≤ c.toNat ∧ c.toNat ≤ 90
  · rw [if_pos h]
    unfold isSpaceCh
    have ht : (Char.ofNat (c.toNat + 32)).toNat = c.toNat + 32 :=
      char_toNat_ofNat _ (by omega)
    rw [ht, spaceCode_false _ (by omega), spaceCode_false _ (by omega)]
  · rw [if_neg h]

theorem dropWhile_map_space (l : List Char) :
    List.dropWhile isSpaceCh (l.map lowerCh) = (List.dropWhile isSpaceCh l).map lowerCh := by
  have hp : (isSpaceCh ∘ lowerCh) = isSpaceCh := funext isSpaceCh_lowerCh
  rw [List.dropWhile_map, hp]

theorem lowerL_stripL (l : List Char) : lowerL (stripL l) = stripL (lowerL l) := by
  unfold stripL lowerL
  rw [dropWhile_map_space, ← List.map_reverse, dropWhile_map_space, ← List.map_reverse]

theorem lowerL_idem (l : List Char) : lowerL (lowerL l) = lowerL l := by
  unfold lowerL
  have hc : (lowerCh ∘ lowerCh) = lowerCh := funext lowerCh_idem
  rw [List.map_map, hc]

theorem dropWhile_dropWhile {α : Type} (p : α → Bool) (l : List α) :
    List.dropWhile p (List.dropWhile p l) = List.dropWhile p l := by
  induction l with
  | nil => rfl
  | cons c cs ih =>
    by_cases h : p c = true
    · rw [List.dropWhile_cons, if_pos h, ih]
    · rw [List.dropWhile_cons, if_neg h, List.dropWhile_cons, if_neg h]

theorem dropWhile_head_false {α : Type} (p : α → Bool) (l : List α) :
    ∀ x ∈ (List.dropWhile p l).head?, p x = false := by
  induction l with
  | nil => intro x hx; cases hx
  | cons c cs ih =>
    by_cases h : p c = true
    · rw [List.dropWhile_cons, if_pos h]
      exact ih
    · rw [List.dropWhile_cons, if_neg h]
      intro x hx
      have hx' : c = x := by simpa using hx
      rw [← hx']
      exact Bool.eq_false_iff.mpr h

theorem dropWhile_eq_self_of_head {α : Type} {p : α → Bool} {l : List α}
    (h : ∀ x ∈ l.head?, p x = false) : List.dropWhile p l = l := by
  cases l with
  | nil => rfl
  | cons c cs =>
    rw [List.dropWhile_cons, if_neg]
    have hc := h c (by simp)
    rw [hc]
    exact Bool.false_ne_true

theorem reverse_dropWhile_reverse_prefix {α : Type} (p : α → Bool) (A : List α) :
    (List.dropWhile p A.reverse).reverse.IsPrefix A := by
  refine List.reverse_suffix.mp ?_
  rw [List.reverse_reverse]
  exact List.dropWhile_suffix p

theorem head?_of_prefix {α : Type} {l₁ l₂ : List α} (h : l₁.IsPrefix l₂)
    (hne : l₁ ≠ []) : l₂.head? = l₁.head? := by
  obtain ⟨t, rfl⟩ := h
  rw [List.head?_append]
  cases l₁ with
  | nil => exact absurd rfl hne
  | cons a l => rfl

theorem stripL_idem (l : List Char) : stripL (stripL l) = stripL l := by
  have hB : stripL l = (List.dropWhile isSpaceCh (List.dropWhile isSpaceCh l).reverse).reverse := rfl
  have hpref : (List.dropWhile isSpaceCh (List.dropWhile isSpaceCh l).reverse).reverse.IsPrefix
      (List.dropWhile isSpaceCh l) := reverse_dropWhile_reverse_prefix _ _
  have hdropB : List.dropWhile isSpaceCh (stripL l) = stripL l := by
    by_cases hb : stripL l = []
    · rw [hb]
      rfl
    · refine dropWhile_eq_self_of_head fun x hx => ?_
      have hhead := head?_of_prefix hpref (by rw [← hB]; exact hb)
      refine dropWhile_head_false isSpaceCh l x ?_
      rw [hhead, ← hB]
      exact hx
  show (List.dropWhile isSpaceCh (List.dropWhile isSpaceCh (stripL l)).reverse).reverse = stripL l
  rw [hdropB, hB, List.reverse_reverse, dropWhile_dropWhile]

theorem lowerL_stripL_idem (l : List Char) :
    lowerL (stripL (lowerL (stripL l))) = lowerL (stripL l) := by
  rw [show stripL (lowerL (stripL l)) = lowerL (stripL (stripL l)) from (lowerL_stripL _).symm,
    lowerL_idem, stripL_idem]

/-- `_canon_item` is idempotent. -/
theorem canon_item_idem (s : String) : canon_item (canon_item s) = canon_item s :=
  congrArg String.mk (lowerL_stripL_idem s.data)

/-- Lowering and stripping is idempotent at the `String` level. -/
theorem lowerStr_stripStr_idem (s : String) :
    lowerStr (stripStr (lowerStr (stripStr s))) = lowerStr (stripStr s) :=
  canon_item_idem s

/-- Case analysis of `_norm_unit`: it returns a unit family, or the
stripped/lowered input with every alias membership refuted. -/
theorem norm_unit_cases (u : String) :
    norm_unit u = "g" ∨ norm_unit u = "ml" ∨ norm_unit u = "count" ∨
    (norm_unit u = lowerStr (stripStr u) ∧
      (["kg", "kilogram", "kilograms"].contains (lowerStr (stripStr u)) = false) ∧
      (["g", "gram", "grams", "gms"].contains (lowerStr (stripStr u)) = false) ∧
      (["l", "litre", "liter", "liters", "litres"].contains (lowerStr (stripStr u)) = false) ∧
      (["ml", "millilitre", "milliliter", "milliliters", "millilitres"].contains
        (lowerStr (stripStr u)) = false) ∧
      (["count", "pc", "pcs", "piece", "pieces"].contains (lowerStr (stripStr u)) = false)) := by
  unfold norm_unit
  by_cases h0 : u = ""
  · rw [if_pos h0]
    tauto
  · rw [if_neg h0]
    dsimp only
    split_ifs with h1 h2 h3 h4 h5
    · tauto
    · tauto
    · tauto
    · tauto
    · tauto
    · exact Or.inr (Or.inr (Or.inr ⟨rfl, Bool.eq_false_iff.mpr h1, Bool.eq_false_iff.mpr h2,
        Bool.eq_false_iff.mpr h3, Bool.eq_false_iff.mpr h4, Bool.eq_false_iff.mpr h5⟩))

/-- `_norm_unit` is idempotent whenever its result is nonempty (the empty
result arises only from whitespace-only unit strings). -/
theorem norm_unit_idem (u : String) (h : norm_unit u ≠ "") :
    norm_unit (norm_unit u) = norm_unit u := by
  rcases norm_unit_cases u with hc | hc | hc | ⟨hc, m1, m2, m3, m4, m5⟩
  · rw [hc]
    decide
  · rw [hc]
    decide
  · rw [hc]
    decide
  · rw [hc] at h ⊢
    have hls : lowerStr (stripStr (lowerStr (stripStr u))) = lowerStr (stripStr u) :=
      lowerStr_stripStr_idem u
    unfold norm_unit
    rw [if_neg h]
    dsimp only
    rw [hls, if_neg (by rw [m1]; exact Bool.false_ne_true),
      if_neg (by rw [m2]; exact Bool.false_ne_true),
      if_neg (by rw [m3]; exact Bool.false_ne_true),
      if_neg (by rw [m4]; exact Bool.false_ne_true),
      if_neg (by rw [m5]; exact Bool.false_ne_true)]

/-- Every right-hand side in the `_normalize_unit` alias table is a unit
family. -/
theorem unitAliases_values (p : String × String) (hp : p ∈ unitAliases) :
    p.2 = "g" ∨ p.2 = "ml" ∨ p.2 = "count" := by
  fin_cases hp <;> simp

/-- The `cook_meal` unit chain never produces the empty unit:
`_norm_unit(_normalize_unit(u))` is nonempty. -/
theorem normalize_unit_norm_ne_empty (u : String) :
    norm_unit (normalize_unit u) ≠ "" := by
  have key : ∀ v : String, v = "g" ∨ v = "ml" ∨ v = "count" → norm_unit v ≠ "" := by
    intro v hv
    rcases hv with rfl | rfl | rfl <;> decide
  unfold normalize_unit
  by_cases h0 : u = ""
  · rw [if_pos h0]
    decide
  · rw [if_neg h0]
    dsimp only
    cases halget : alget unitAliases (lowerStr (stripStr u)) with
    | some fam =>
      rw [Option.getD_some]
      exact key fam (unitAliases_values _ (mem_of_alget_eq_some halget))
    | none =>
      rw [Option.getD_none]
      rcases norm_unit_cases (lowerStr (stripStr u)) with hc | hc | hc | ⟨hc, _⟩
      · rw [hc]
        decide
      · rw [hc]
        decide
      · rw [hc]
        decide
      · rw [hc, lowerStr_stripStr_idem]
        intro hemp
        rw [hemp] at hc
        -- then norm_unit "" = "count" ≠ "", contradiction with hc : "count" = ""
        rw [show norm_unit "" = "count" from rfl] at hc
        exact absurd hc.symm (by decide)

/-! ## Claim theorems: the shopping list (C6) -/

theorem alget_eq_some_iff {κ ν : Type} [DecidableEq κ] :
    ∀ {l : List (κ × ν)}, (keys l).Nodup → ∀ {k : κ} {v : ν},
      (alget l k = some v ↔ (k, v) ∈ l) := by
  intro l
  induction l with
  | nil =>
    intro _ k v
    constructor
    · intro h
      cases h
    · intro h
      cases h
  | cons p ps ih =>
    intro h k v
    rw [keys, List.map_cons, List.nodup_cons] at h
    constructor
    · exact mem_of_alget_eq_some
    · intro hm
      rw [alget_cons]
      rcases List.mem_cons.mp hm with h1 | h1
      · rw [← h1]
        simp
      · by_cases hp : p.1 = k
        · exfalso
          apply h.1
          have hmem : k ∈ keys ps := List.mem_map.mpr ⟨(k, v), h1, rfl⟩
          rwa [hp]
        · rw [if_neg hp]
          exact (ih h.2).mpr h1

theorem alset_eq_append {κ ν : Type} [DecidableEq κ] :
    ∀ {l : List (κ × ν)} {k : κ} {v : ν}, alget l k = none → alset l k v = l ++ [(k, v)] := by
  intro l
  induction l with
  | nil => intro k v _; rfl
  | cons p ps ih =>
    intro k v h
    rw [alget_cons] at h
    by_cases hp : p.1 = k
    · rw [if_pos hp] at h
      cases h
    · rw [if_neg hp] at h
      rw [alset, if_neg hp, ih h, List.cons_append]

/-- The ordered per-pair build of the deficit list, pre-sort. -/
theorem deficits_fold_eq (pantry : Store) :
    ∀ (needs : List ((String × String) × Int)) (acc : List Deficit),
      needs.foldl
        (fun acc kv =>
          let hv := pantry_have pantry kv.1.1 kv.1.2
          let buy := max 0 (kv.2 - hv)
          if 0 < buy then acc ++ [⟨kv.1.1, kv.1.2, kv.2, hv, buy⟩] else acc) acc =
      acc ++ needs.filterMap (deficit_of pantry) := by
  intro needs
  induction needs with
  | nil => intro acc; simp
  | cons kv rest ih =>
    intro acc
    rw [List.foldl_cons, List.filterMap_cons]
    dsimp only
    by_cases hb : 0 < max 0 (kv.2 - pantry_have pantry kv.1.1 kv.1.2)
    · rw [if_pos hb, ih]
      have hf : deficit_of pantry kv = some ⟨kv.1.1, kv.1.2, kv.2,
          pantry_have pantry kv.1.1 kv.1.2,
          max 0 (kv.2 - pantry_have pantry kv.1.1 kv.1.2)⟩ := by
        unfold deficit_of
        dsimp only
        rw [if_pos hb]
      rw [hf]
      simp
    · rw [if_neg hb, ih]
      have hf : deficit_of pantry kv = none := by
        unfold deficit_of
        dsimp only
        rw [if_neg hb]
      rw [hf]

theorem collect_keys_nodup (catalog : List Recipe) (plan : Plan) :
    (keys (collect_plan_requirements catalog plan)).Nodup := by
  unfold collect_plan_requirements
  refine @foldl_preserve _ _ (fun need => (keys need).Nodup) _
    (fun need dayRow h => ?_) _ _ List.nodup_nil
  refine @foldl_preserve _ _ (fun need => (keys need).Nodup) _
    (fun need slot h => ?_) _ _ h
  unfold needs_add_slot
  cases lookupRecipeLower catalog slot.2 with
  | none => exact h
  | some rec =>
    refine @foldl_preserve _ _ (fun need => (keys need).Nodup) _
      (fun need ing h => ?_) _ _ h
    unfold needs_add_ing
    dsimp only
    by_cases hc : (ing.quantity ≤ 0 ∨ canonical_key ing.item = "")
    · rwa [if_pos hc]
    · rw [if_neg hc]
      exact nodup_keys_alset _ _ h

theorem deficit_keys_sublist (pantry : Store) :
    ∀ needs : List ((String × String) × Int),
      (((needs.filterMap (deficit_of pantry)).map fun d => (d.item, d.unit))).Sublist
        (keys needs) := by
  intro needs
  induction needs with
  | nil => exact List.Sublist.refl _
  | cons kv rest ih =>
    rw [List.filterMap_cons]
    cases hf : deficit_of pantry kv with
    | none =>
      dsimp only
      exact ih.trans (List.sublist_cons_self _ _)
    | some d =>
      dsimp only
      have hd : (d.item, d.unit) = kv.1 := by
        unfold deficit_of at hf
        dsimp only at hf
        by_cases hb : 0 < max 0 (kv.2 - pantry_have pantry kv.1.1 kv.1.2)
        · rw [if_pos hb] at hf
          cases hf
          rfl
        · rw [if_neg hb] at hf
          cases hf
      rw [List.map_cons, hd, keys, List.map_cons]
      exact ih.cons₂ kv.1

/-- Empty dish names resolve to no recipe when the catalog has none. -/
theorem lookup_empty_none (catalog : List Recipe)
    (hnames : ∀ r ∈ catalog, lowerStr r.name ≠ "") :
    lookupRecipeLower catalog "" = none := by
  unfold lookupRecipeLower
  rw [List.find?_eq_none]
  intro r hr
  have hn := hnames r (List.mem_reverse.mp hr)
  simp only [beq_eq_false_iff_ne, ne_eq, Bool.not_eq_true]
  intro hb
  exact hn (by simpa [lowerStr, stripStr] using hb)

theorem C6_row_fold_filter (catalog : List Recipe)
    (hnames : ∀ r ∈ catalog, lowerStr r.name ≠ "") :
    ∀ (row : Row) (need : List ((String × String) × Int)),
      row.foldl (needs_add_slot catalog) need =
      (row.filter fun slot => slot.2 ≠ "").foldl (needs_add_slot catalog) need := by
  intro row
  induction row with
  | nil => intro need; rfl
  | cons slot rest ih =>
    intro need
    rw [List.foldl_cons, List.filter_cons]
    by_cases hs : slot.2 = ""
    · rw [if_neg (by simp [hs])]
      have hstep : needs_add_slot catalog need slot = need := by
        unfold needs_add_slot
        rw [hs, lookup_empty_none catalog hnames]
      rw [hstep]
      exact ih need
    · rw [if_pos (by simp [hs]), List.foldl_cons]
      exact ih _

/-- C6: the shopping-list computation sums needs over the plan's filled
slots only (empty slots contribute nothing), and emits exactly one Deficit
record per canonical `(item, unit)` pair — present precisely when the total
need exceeds the ledger amount the matching raw key holds, with
`buy = need − have`. -/
theorem C6_shopping_list_deficits (catalog : List Recipe) (pantry : Store)
    (plan : Plan) (hnames : ∀ r ∈ catalog, lowerStr r.name ≠ "") :
    collect_plan_requirements catalog plan =
      collect_plan_requirements catalog
        (plan.map fun e => (e.1, e.2.filter fun slot => slot.2 ≠ "")) ∧
    (((quantity_shopping_deficits catalog pantry plan).map fun d =>
      (d.item, d.unit))).Nodup ∧
    ∀ d : Deficit, d ∈ quantity_shopping_deficits catalog pantry plan ↔
      (sget (collect_plan_requirements catalog plan) (d.item, d.unit) = some d.need ∧
       d.onHand = pantry_have pantry d.item d.unit ∧
       d.onHand < d.need ∧ d.buy = d.need - d.onHand) := by
  have hperm :
      (quantity_shopping_deficits catalog pantry plan).Perm
        ((collect_plan_requirements catalog plan).filterMap (deficit_of pantry)) := by
    unfold quantity_shopping_deficits
    dsimp only
    rw [deficits_fold_eq, List.nil_append]
    exact List.perm_insertionSort _ _
  have hnodup := collect_keys_nodup catalog plan
  refine ⟨?_, ?_, ?_⟩
  · -- empty slots are ignored
    clear hperm hnodup
    unfold collect_plan_requirements
    generalize ([] : List ((String × String) × Int)) = acc
    induction plan generalizing acc with
    | nil => rfl
    | cons e rest ih =>
      rw [List.map_cons, List.foldl_cons, List.foldl_cons]
      dsimp only
      rw [← C6_row_fold_filter catalog hnames e.2 acc]
      exact ih _
  · have h1 := (hperm.map fun d => (d.item, d.unit)).nodup_iff
    exact h1.mpr ((deficit_keys_sublist pantry _).nodup hnodup)
  · intro d
    obtain ⟨i, u, n, hv, b⟩ := d
    rw [hperm.mem_iff, List.mem_filterMap]
    constructor
    · rintro ⟨kv, hkv, hf⟩
      unfold deficit_of at hf
      dsimp only at hf
      by_cases hb : 0 < max 0 (kv.2 - pantry_have pantry kv.1.1 kv.1.2)
      · rw [if_pos hb] at hf
        cases hf
        dsimp only
        refine ⟨(alget_eq_some_iff hnodup).mpr hkv, rfl, by omega, by omega⟩
      · rw [if_neg hb] at hf
        cases hf
    · rintro ⟨hneed, hhave, hlt, hbuy⟩
      dsimp only at hneed hhave hlt hbuy
      refine ⟨((i, u), n), (alget_eq_some_iff hnodup).mp hneed, ?_⟩
      unfold deficit_of
      dsimp only
      rw [← hhave, if_pos (by omega)]
      rw [show max 0 (n - hv) = b by omega]

/-- C6 witness: two slots of dish C (150 g rice each) against 150 g on hand
yield exactly the Deficit `{rice, g, need 300, have 150, buy 150}`. -/
theorem C6_shopping_list_deficits_witness :
    (∀ r ∈ [dishC], lowerStr r.name ≠ "") ∧
    (⟨"rice", "g", 300, 150, 150⟩ : Deficit) ∈
      quantity_shopping_deficits [dishC] [("rice (g)", 150)]
        [("Day1", [("Lunch", "C"), ("Dinner", "C")])] ∧
    quantity_shopping_deficits [dishC] [("rice (g)", 150)]
        [("Day1", [("Lunch", "C"), ("Dinner", "C")])] =
      [⟨"rice", "g", 300, 150, 150⟩] :=
  ⟨by decide,
    ((C6_shopping_list_deficits [dishC] [("rice (g)", 150)]
        [("Day1", [("Lunch", "C"), ("Dinner", "C")])] (by decide)).2.2
      ⟨"rice", "g", 300, 150, 150⟩).mpr (by decide),
    by decide⟩

/-! ## Claim theorems: cook transaction accounting (C7) -/

/-- C7: for every ingredient line the cook transaction processes (nonblank
item, positive need, no degenerate self-mirror rule), the reported
`used = min(pre-mutation on-hand, needed)` and `missing = needed − used`
agree with the actual ledger mutation: the canonical entry drops by exactly
`used`, and it is deleted (reaches zero) whenever the need was at least the
on-hand amount. -/
theorem C7_cook_line_accounting (rules : List AltRule) (acc : CookAcc)
    (ing : Ingredient) (hwf : wfStore acc.store)
    (hitem : stripStr ing.item ≠ "") (hq : 0 < ing.quantity)
    (hmir : ∀ r ∈ alt_transforms_for rules (canon_item (stripStr ing.item))
        (norm_unit (normalize_unit ing.unit)),
      pkey (canon_item (stripStr ing.item)) (norm_unit r.toUnit) ≠
        pkey (canon_item (stripStr ing.item)) (norm_unit (normalize_unit ing.unit))) :
    (cook_ingredient rules acc ing).deducted =
      (if 0 < min (dgetD acc.store (canon_item (stripStr ing.item) ++ " (" ++
            norm_unit (normalize_unit ing.unit) ++ ")")) ing.quantity then
        acc.deducted ++ [toString (min (dgetD acc.store (canon_item (stripStr ing.item) ++
          " (" ++ norm_unit (normalize_unit ing.unit) ++ ")")) ing.quantity) ++ " " ++
          norm_unit (normalize_unit ing.unit) ++ " " ++ stripStr ing.item]
       else acc.deducted) ∧
    (cook_ingredient rules acc ing).missing =
      (if min (dgetD acc.store (canon_item (stripStr ing.item) ++ " (" ++
            norm_unit (normalize_unit ing.unit) ++ ")")) ing.quantity < ing.quantity then
        acc.missing ++ [toString (ing.quantity - min (dgetD acc.store
          (canon_item (stripStr ing.item) ++ " (" ++
            norm_unit (normalize_unit ing.unit) ++ ")")) ing.quantity) ++ " " ++
          norm_unit (normalize_unit ing.unit) ++ " " ++ stripStr ing.item]
       else acc.missing) ∧
    dgetD (cook_ingredient rules acc ing).store (canon_item (stripStr ing.item) ++ " (" ++
        norm_unit (normalize_unit ing.unit) ++ ")") =
      dgetD acc.store (canon_item (stripStr ing.item) ++ " (" ++
        norm_unit (normalize_unit ing.unit) ++ ")") -
      min (dgetD acc.store (canon_item (stripStr ing.item) ++ " (" ++
        norm_unit (normalize_unit ing.unit) ++ ")")) ing.quantity ∧
    (dgetD acc.store (canon_item (stripStr ing.item) ++ " (" ++
        norm_unit (normalize_unit ing.unit) ++ ")") ≤ ing.quantity →
      dget (cook_ingredient rules acc ing).store (canon_item (stripStr ing.item) ++ " (" ++
        norm_unit (normalize_unit ing.unit) ++ ")") = none) := by
  have e1 : canon_item (canon_item (stripStr ing.item)) = canon_item (stripStr ing.item) :=
    canon_item_idem _
  have e2 : norm_unit (norm_unit (normalize_unit ing.unit)) = norm_unit (normalize_unit ing.unit) :=
    norm_unit_idem _ (normalize_unit_norm_ne_empty _)
  have hkey : pkey (canon_item (canon_item (stripStr ing.item)))
      (norm_unit (norm_unit (normalize_unit ing.unit))) =
      canon_item (stripStr ing.item) ++ " (" ++ norm_unit (normalize_unit ing.unit) ++ ")" := by
    unfold pkey
    rw [e1, e2, e1, e2]
  have hmir' : ∀ r ∈ alt_transforms_for rules (canon_item (canon_item (stripStr ing.item)))
      (norm_unit (norm_unit (normalize_unit ing.unit))),
      pkey (canon_item (canon_item (stripStr ing.item))) (norm_unit r.toUnit) ≠
        pkey (canon_item (canon_item (stripStr ing.item)))
          (norm_unit (norm_unit (normalize_unit ing.unit))) := by
    simpa only [e1, e2] using hmir
  have hspec := premove_some_dget_self rules acc.store (canon_item (stripStr ing.item))
    ing.quantity (norm_unit (normalize_unit ing.unit)) hwf hmir' hq
  rw [hkey] at hspec
  have hcond : ¬(stripStr ing.item = "" ∨ ing.quantity ≤ 0) := by
    rintro (hc | hc)
    · exact hitem hc
    · omega
  unfold cook_ingredient
  rw [if_neg hcond]
  dsimp only
  refine ⟨rfl, rfl, ?_, ?_⟩
  · cases hv : dget acc.store (canon_item (stripStr ing.item) ++ " (" ++
        norm_unit (normalize_unit ing.unit) ++ ")") with
    | none =>
      rw [hv] at hspec
      have hb : dgetD acc.store (canon_item (stripStr ing.item) ++ " (" ++
          norm_unit (normalize_unit ing.unit) ++ ")") = 0 := by
        rw [dgetD, hv]
        rfl
      rw [dgetD, hspec, hb]
      dsimp only [Option.getD]
      omega
    | some v =>
      rw [hv] at hspec
      have hb : dgetD acc.store (canon_item (stripStr ing.item) ++ " (" ++
          norm_unit (normalize_unit ing.unit) ++ ")") = v := by
        rw [dgetD, hv]
        rfl
      rw [dgetD, hspec, hb]
      dsimp only
      by_cases hvq : v ≤ ing.quantity
      · rw [if_pos hvq]
        dsimp only [Option.getD]
        omega
      · rw [if_neg hvq]
        dsimp only [Option.getD]
        omega
  · intro hle
    cases hv : dget acc.store (canon_item (stripStr ing.item) ++ " (" ++
        norm_unit (normalize_unit ing.unit) ++ ")") with
    | none =>
      rw [hv] at hspec
      exact hspec
    | some v =>
      rw [hv] at hspec
      have hb : dgetD acc.store (canon_item (stripStr ing.item) ++ " (" ++
          norm_unit (normalize_unit ing.unit) ++ ")") = v := by
        rw [dgetD, hv]
        rfl
      rw [hb] at hle
      rw [hspec]
      dsimp only
      rw [if_pos hle]

/-- C7 witness: a line needing 100 g spinach with 50 g on hand reports
`used = 50` and `missing = 50` and deletes the ledger entry, matching the
end-to-end `cook_meal` run on dish D. -/
theorem C7_cook_line_accounting_witness :
    wfStore [("spinach (g)", 50)] ∧
    (cook_ingredient [] ⟨[("spinach (g)", 50)], [], []⟩ ⟨"spinach", 100, "g"⟩).deducted =
      ["50 g spinach"] ∧
    (cook_ingredient [] ⟨[("spinach (g)", 50)], [], []⟩ ⟨"spinach", 100, "g"⟩).missing =
      ["50 g spinach"] ∧
    dget (cook_ingredient [] ⟨[("spinach (g)", 50)], [], []⟩
        ⟨"spinach", 100, "g"⟩).store (canon_item (stripStr "spinach") ++ " (" ++
        norm_unit (normalize_unit "g") ++ ")") = none ∧
    cook_meal_dish [dishD] [] [("spinach (g)", 50)] "D" =
      some ⟨[], ["50 g spinach"], ["50 g spinach"]⟩ := by
  have h := C7_cook_line_accounting [] ⟨[("spinach (g)", 50)], [], []⟩
    ⟨"spinach", 100, "g"⟩ (by decide) (by decide) (by decide) (by decide)
  exact ⟨by decide, h.1.trans (by decide), h.2.1.trans (by decide),
    h.2.2.2 (by decide), by decide⟩

/-! ## Claim theorems: auto_plan never touches the durable ledger (C8) -/

theorem fillMeals_pantry (c : Constraints) (cands onceList : List Recipe)
    (cont : Bool) (dayKey : String) :
    ∀ (meals : List String) (row : Row) (st : LoopSt),
      (fillMeals c cands onceList cont dayKey meals row st).2.1.pantry = st.pantry := by
  intro meals
  induction meals with
  | nil => intro row st; rfl
  | cons meal rest ih =>
    intro row st
    rw [fillMeals]
    by_cases hskip : (cont && !((rowGet row meal).getD "").isEmpty) = true
    · rw [if_pos hskip]
      exact ih _ _
    · rw [if_neg hskip]
      dsimp only
      cases hpick : (if c.mode = "pantry-first-strict" then
          match pick_pass1 c onceList st.onceLeft st.prev st.shadow with
          | some r => some (r, "100% pantry coverage (once-each pass)")
          | none =>
            match pick_pass2 c cands st.prev st.shadow with
            | some r => some (r, "100% pantry coverage")
            | none => none
        else (pick_freeform c cands st.prev).map (fun r => (r, "freeform pick"))) with
      | none => rfl
      | some rr =>
        obtain ⟨r, reason⟩ := rr
        dsimp only
        exact ih _ _

theorem fillDays_pantry (c : Constraints) (cands onceList : List Recipe)
    (cont : Bool) (meals : List String) :
    ∀ (ds : List Int) (plan : Plan) (st : LoopSt),
      (fillDays c cands onceList cont meals ds plan st).2.1.pantry = st.pantry := by
  intro ds
  induction ds with
  | nil => intro plan st; rfl
  | cons d rest ih =>
    intro plan st
    simp only [fillDays]
    by_cases hstop : (fillMeals c cands onceList cont ("Day" ++ toString d) meals
        ((planGet plan ("Day" ++ toString d)).getD []) st).2.2 = true
    · rw [if_pos hstop]
      exact fillMeals_pantry _ _ _ _ _ _ _ _
    · rw [if_neg hstop]
      rw [ih]
      exact fillMeals_pantry _ _ _ _ _ _ _ _

theorem auto_plan_assemble_snd (days startAt : Int) (mealsLen : Nat)
    (res : Plan × LoopSt × Option Int) :
    (auto_plan_assemble days startAt mealsLen res).2 = res.2.1.pantry := by
  obtain ⟨p, st, od⟩ := res
  cases od <;> rfl

/-- C8: `auto_plan` never mutates the durable ledger: for every payload,
constraints, catalog and prior plan/log state, the pantry store it hands
back is exactly the one it was given — all deductions happen on the
in-memory canonical shadow only. -/
theorem C8_auto_plan_preserves_pantry (catalog : List Recipe) (c : Constraints)
    (days : Int) (mealsArg : MealsArg) (cont : Bool) (pantry : Store)
    (plan0 : Plan) (calcLog0 : List CalcEntry) :
    (auto_plan catalog c days mealsArg cont pantry plan0 calcLog0).2 = pantry := by
  unfold auto_plan
  rw [auto_plan_assemble_snd]
  exact fillDays_pantry _ _ _ _ _ _ _ _

/-! ## Claim theorems: the no-immediate-repeat rule (C9) -/

theorem mem_getLast?_eq {α : Type} : ∀ {l : List α} {x : α}, l.getLast? = some x → x ∈ l := by
  intro l
  induction l with
  | nil => intro x h; cases h
  | cons a t ih =>
    intro x h
    cases t with
    | nil =>
      rw [List.getLast?_singleton] at h
      rw [List.mem_singleton]
      exact (Option.some_inj.mp h).symm
    | cons b u =>
      rw [List.getLast?_cons_cons] at h
      exact List.mem_cons_of_mem a (ih h)

theorem mem_stableSortBy {α : Type} {le : α → α → Bool} {l : List α} {x : α} :
    x ∈ stableSortBy le l ↔ x ∈ l :=
  (List.perm_insertionSort (fun a b => le a b = true) l).mem_iff

/-- When repeats are disallowed and the previous dish is a nonempty name,
a pick passing the repeat guard differs from it. -/
theorem repOk_ne (c : Constraints) (x nameL : String) (hAR : c.allowRepeats = false)
    (hx : x ≠ "") (h : repOk c (some x) nameL = true) : x ≠ nameL := by
  intro hxy
  unfold repOk prevTruthy prevEq at h
  dsimp only at h
  rw [hAR, decide_eq_true hx, decide_eq_true hxy] at h
  exact Bool.false_ne_true h

theorem scanRow_cons_some (row : Row) (m : String) (ms : List String) (d : String)
    (hg : rowGet row m = some d) (hd : ¬(d = "")) :
    scanRow row (m :: ms) = d :: scanRow row ms := by
  unfold scanRow
  rw [List.filterMap_cons]
  rw [hg]
  dsimp only
  rw [if_neg hd]

theorem scanRow_cons_skip (row : Row) (m : String) (ms : List String)
    (hg : rowGet row m = some "") :
    scanRow row (m :: ms) = scanRow row ms := by
  unfold scanRow
  rw [List.filterMap_cons]
  rw [hg]
  dsimp only
  rw [if_pos rfl]

theorem scanRow_eq_nil (row : Row) (ms : List String)
    (h : ∀ m ∈ ms, rowGet row m = none) : scanRow row ms = [] := by
  unfold scanRow
  rw [List.filterMap_eq_nil_iff]
  intro m hm
  rw [h m hm]

theorem scanRow_cons_build (row : Row) (m : String) (ms : List String) (d : String)
    (hg : rowGet row m = some d) (hd : ¬(d = "")) (tail : List String)
    (htail : (scanRow row ms).map lowerStr = tail) :
    (scanRow row (m :: ms)).map lowerStr = lowerStr d :: tail := by
  rw [scanRow_cons_some row m ms d hg hd, List.map_cons, htail]

theorem planGet_planSet_ne (p : Plan) (row : Row) {dk dk' : String} (h : dk' ≠ dk) :
    planGet (planSet p dk row) dk' = planGet p dk' := alget_alset_ne p row h

/-- Scanning a plan extended at a fresh day key appends that day's row scan. -/
theorem scanPlanRows_planSet_fresh (meals : List String) (plan : Plan) (dk : String)
    (row : Row) (h : planGet plan dk = none) :
    scanPlanRows (planSet plan dk row) meals =
      scanPlanRows plan meals ++ scanRow row meals := by
  have h2 : planSet plan dk row = plan ++ [(dk, row)] := alset_eq_append h
  rw [h2]
  unfold scanPlanRows
  rw [List.flatMap_append, List.flatMap_cons, List.flatMap_nil, List.append_nil]

/-- Any successful pick of the slot loop comes from the once list or the
candidate list and passes the consecutive-repeat guard against the current
previous dish. -/
theorem pick_spec (c : Constraints) (cands onceList : List Recipe) (st : LoopSt)
    (r : Recipe) (reason : String)
    (h : (if c.mode = "pantry-first-strict" then
        match pick_pass1 c onceList st.onceLeft st.prev st.shadow with
        | some rp => some (rp, "100% pantry coverage (once-each pass)")
        | none =>
          match pick_pass2 c cands st.prev st.shadow with
          | some rp => some (rp, "100% pantry coverage")
          | none => none
      else (pick_freeform c cands st.prev).map (fun rp => (rp, "freeform pick"))) =
      some (r, reason)) :
    (r ∈ onceList ∨ r ∈ cands) ∧ repOk c st.prev (nameLOf r) = true := by
  by_cases hm : c.mode = "pantry-first-strict"
  · rw [if_pos hm] at h
    cases h1 : pick_pass1 c onceList st.onceLeft st.prev st.shadow with
    | some r1 =>
      rw [h1] at h
      dsimp only at h
      rw [Option.some_inj, Prod.mk.injEq] at h
      obtain ⟨hr, _⟩ := h
      subst hr
      unfold pick_pass1 at h1
      by_cases he : st.onceLeft.isEmpty = true
      · rw [if_pos he] at h1
        cases h1
      · rw [if_neg he] at h1
        have hmem := List.mem_of_find?_eq_some h1
        have hp := List.find?_some h1
        simp only [Bool.and_eq_true] at hp
        exact ⟨Or.inl hmem, hp.1.2⟩
    | none =>
      rw [h1] at h
      dsimp only at h
      cases h2 : pick_pass2 c cands st.prev st.shadow with
      | some r2 =>
        rw [h2] at h
        dsimp only at h
        rw [Option.some_inj, Prod.mk.injEq] at h
        obtain ⟨hr, _⟩ := h
        subst hr
        unfold pick_pass2 at h2
        have hmem := List.mem_of_find?_eq_some h2
        have hp := List.find?_some h2
        simp only [Bool.and_eq_true] at hp
        exact ⟨Or.inr hmem, hp.1⟩
      | none =>
        rw [h2] at h
        dsimp only at h
        cases h
  · rw [if_neg hm] at h
    rw [Option.map_eq_some'] at h
    obtain ⟨r0, hr0, hfr⟩ := h
    simp only [Prod.mk.injEq] at hfr
    obtain ⟨hr, _⟩ := hfr
    subst hr
    unfold pick_freeform at hr0
    have hp := List.find?_some hr0
    exact ⟨Or.inr (List.mem_of_find?_eq_some hr0), hp⟩

/-- The inner meal loop never writes a slot outside its remaining meal
list. -/
theorem fillMeals_rowGet_outside (c : Constraints) (cands onceList : List Recipe)
    (cont : Bool) (dayKey : String) :
    ∀ (ms : List String) (row : Row) (st : LoopSt) (m' : String), m' ∉ ms →
      rowGet (fillMeals c cands onceList cont dayKey ms row st).1 m' = rowGet row m' := by
  intro ms
  induction ms with
  | nil => intro row st m' _; rfl
  | cons meal rest ih =>
    intro row st m' hm'
    have hmne : m' ≠ meal := fun he => hm' (he ▸ List.mem_cons_self meal rest)
    have hrest : m' ∉ rest := fun hr => hm' (List.mem_cons_of_mem meal hr)
    rw [fillMeals]
    by_cases hskip : (cont && !((rowGet row meal).getD "").isEmpty) = true
    · rw [if_pos hskip]
      exact ih row _ m' hrest
    · rw [if_neg hskip]
      dsimp only
      cases hpick : (if c.mode = "pantry-first-strict" then
          match pick_pass1 c onceList st.onceLeft st.prev st.shadow with
          | some rp => some (rp, "100% pantry coverage (once-each pass)")
          | none =>
            match pick_pass2 c cands st.prev st.shadow with
            | some rp => some (rp, "100% pantry coverage")
            | none => none
        else (pick_freeform c cands st.prev).map (fun rp => (rp, "freeform pick"))) with
      | none =>
        dsimp only
        unfold rowSetdefault
        by_cases hsome : (rowGet row meal).isSome = true
        · rw [if_pos hsome]
        · rw [if_neg hsome]
          show alget (alset row meal "") m' = alget row m'
          exact alget_alset_ne row "" hmne
      | some rr =>
        obtain ⟨r, reason⟩ := rr
        dsimp only
        rw [ih (rowSet row meal (nameOf r)) _ m' hrest]
        show alget (alset row meal (nameOf r)) m' = alget row m'
        exact alget_alset_ne row (nameOf r) hmne

/-- One fresh day row of the slot loop: with repeats disallowed, nonempty
candidate names and an untouched row, the dishes it writes extend the
already-scanned dish list without introducing an adjacent case-insensitive
repeat, and the loop's `prev` tracks the last dish overall. -/
theorem fillMeals_scan (c : Constraints) (cands onceList : List Recipe) (cont : Bool)
    (dayKey : String) (hcont : cont = false) (hAR : c.allowRepeats = false)
    (hn1 : ∀ r ∈ cands, nameLOf r ≠ "") (hn2 : ∀ r ∈ onceList, nameLOf r ≠ "") :
    ∀ (ms : List String) (row : Row) (st : LoopSt) (Lw : List String),
      ms.Nodup → (∀ m ∈ ms, rowGet row m = none) →
      st.prev = Lw.getLast? → List.Chain' (· ≠ ·) Lw → (∀ x ∈ Lw, x ≠ "") →
      ∃ Lnew : List String,
        (scanRow (fillMeals c cands onceList cont dayKey ms row st).1 ms).map lowerStr
          = Lnew ∧
        List.Chain' (· ≠ ·) (Lw ++ Lnew) ∧ (∀ x ∈ Lnew, x ≠ "") ∧
        (fillMeals c cands onceList cont dayKey ms row st).2.1.prev
          = (Lw ++ Lnew).getLast? := by
  intro ms
  induction ms with
  | nil =>
    intro row st Lw _ _ hprev hchain _
    exact ⟨[], rfl, by rw [List.append_nil]; exact hchain,
      fun x hx => absurd hx (List.not_mem_nil x),
      by rw [List.append_nil]; exact hprev⟩
  | cons meal rest ih =>
    intro row st Lw hnd hnew hprev hchain hne
    rw [List.nodup_cons] at hnd
    have hmealnew : rowGet row meal = none := hnew meal (List.mem_cons_self meal rest)
    have hns : ¬((rowGet row meal).isSome = true) := by
      rw [hmealnew]; exact Bool.false_ne_true
    rw [fillMeals]
    by_cases hskip : (cont && !((rowGet row meal).getD "").isEmpty) = true
    · rw [hcont, Bool.false_and] at hskip
      exact absurd hskip Bool.false_ne_true
    · rw [if_neg hskip]
      dsimp only
      cases hpick : (if c.mode = "pantry-first-strict" then
          match pick_pass1 c onceList st.onceLeft st.prev st.shadow with
          | some rp => some (rp, "100% pantry coverage (once-each pass)")
          | none =>
            match pick_pass2 c cands st.prev st.shadow with
            | some rp => some (rp, "100% pantry coverage")
            | none => none
        else (pick_freeform c cands st.prev).map (fun rp => (rp, "freeform pick"))) with
      | none =>
        dsimp only
        have hgm : rowGet (rowSetdefault row meal "") meal = some "" := by
          unfold rowSetdefault
          rw [if_neg hns]
          exact alget_alset_self row meal ""
        have hrest0 : ∀ m ∈ rest, rowGet (rowSetdefault row meal "") m = none := by
          intro m hm
          have hmne : m ≠ meal := fun he => hnd.1 (he ▸ hm)
          unfold rowSetdefault
          rw [if_neg hns]
          show alget (alset row meal "") m = none
          rw [alget_alset_ne row "" hmne]
          exact hnew m (List.mem_cons_of_mem meal hm)
        have hscan0 : scanRow (rowSetdefault row meal "") (meal :: rest) = [] := by
          rw [scanRow_cons_skip (rowSetdefault row meal "") meal rest hgm]
          exact scanRow_eq_nil (rowSetdefault row meal "") rest hrest0
        refine ⟨[], ?_, by rw [List.append_nil]; exact hchain,
          fun x hx => absurd hx (List.not_mem_nil x),
          by rw [List.append_nil]; exact hprev⟩
        rw [hscan0, List.map_nil]
      | some rr =>
        obtain ⟨r, reason⟩ := rr
        dsimp only
        have hps := pick_spec c cands onceList st r reason hpick
        have hname : nameLOf r ≠ "" := by
          rcases hps.1 with h | h
          · exact hn2 r h
          · exact hn1 r h
        have hname0 : ¬(nameOf r = "") := fun he => hname (by
          rw [show nameLOf r = lowerStr (nameOf r) from rfl, he]; rfl)
        have hchain2 : List.Chain' (· ≠ ·) (Lw ++ [nameLOf r]) := by
          rw [List.chain'_append]
          refine ⟨hchain, List.chain'_singleton (nameLOf r), ?_⟩
          intro x hx y hy
          have hy3 : ([nameLOf r] : List String).head? = some y := Option.mem_def.mp hy
          have hy2 : nameLOf r = y := Option.some_inj.mp hy3
          have hxg : Lw.getLast? = some x := Option.mem_def.mp hx
          have hxprev : st.prev = some x := hprev.trans hxg
          have hx0 : x ≠ "" := hne x (mem_getLast?_eq hxg)
          have hrep : repOk c (some x) (nameLOf r) = true := by
            rw [← hxprev]; exact hps.2
          exact fun hxy => repOk_ne c x (nameLOf r) hAR hx0 hrep (hxy.trans hy2.symm)
        have hne2 : ∀ x ∈ Lw ++ [nameLOf r], x ≠ "" := by
          intro x hx
          rcases List.mem_append.mp hx with h | h
          · exact hne x h
          · rw [List.mem_singleton] at h
            rw [h]; exact hname
        have hnew2 : ∀ m ∈ rest, rowGet (rowSet row meal (nameOf r)) m = none := by
          intro m hm
          have hmne : m ≠ meal := fun he => hnd.1 (he ▸ hm)
          show alget (alset row meal (nameOf r)) m = none
          rw [alget_alset_ne row (nameOf r) hmne]
          exact hnew m (List.mem_cons_of_mem meal hm)
        obtain ⟨Lnew, hscan, hch, hnen, hpr⟩ :=
          ih (rowSet row meal (nameOf r))
            { st with
              prev := some (lowerStr (nameOf r)),
              filled := st.filled + 1,
              shadow := if c.mode = "pantry-first-strict" then
                  apply_deduction_canon r st.shadow else st.shadow,
              onceLeft := if c.mode = "pantry-first-strict" then
                  st.onceLeft.erase (nameLOf r) else st.onceLeft,
              calcLog := st.calcLog ++ [⟨dayKey ++ " » " ++ meal, nameOf r, reason⟩] }
            (Lw ++ [nameLOf r]) hnd.2 hnew2
            (by rw [List.getLast?_concat]; rfl) hchain2 hne2
        refine ⟨nameLOf r :: Lnew, ?_, ?_, ?_, ?_⟩
        · refine scanRow_cons_build _ meal rest (nameOf r) ?_ hname0 Lnew hscan
          rw [fillMeals_rowGet_outside c cands onceList cont dayKey rest
            (rowSet row meal (nameOf r)) _ meal hnd.1]
          exact alget_alset_self row meal (nameOf r)
        · rw [← List.singleton_append, ← List.append_assoc]
          exact hch
        · intro x hx
          rcases List.mem_cons.mp hx with h | h
          · rw [h]; exact hname
          · exact hnen x h
        · rw [← @List.singleton_append String (nameLOf r) Lnew, ← List.append_assoc]
          exact hpr

/-- Day loop counterpart of `fillMeals_scan`: over fresh, pairwise-distinct
day keys the full scan of the produced plan stays free of adjacent
case-insensitive repeats. -/
theorem fillDays_scan (c : Constraints) (cands onceList : List Recipe) (cont : Bool)
    (meals : List String) (hcont : cont = false) (hAR : c.allowRepeats = false)
    (hn1 : ∀ r ∈ cands, nameLOf r ≠ "") (hn2 : ∀ r ∈ onceList, nameLOf r ≠ "")
    (hmnd : meals.Nodup) :
    ∀ (ds : List Int) (plan : Plan) (st : LoopSt),
      ((ds.map fun d => "Day" ++ toString d).Nodup) →
      (∀ d ∈ ds, planGet plan ("Day" ++ toString d) = none) →
      st.prev = ((scanPlanRows plan meals).map lowerStr).getLast? →
      List.Chain' (· ≠ ·) ((scanPlanRows plan meals).map lowerStr) →
      (∀ x ∈ (scanPlanRows plan meals).map lowerStr, x ≠ "") →
      List.Chain' (· ≠ ·)
        ((scanPlanRows (fillDays c cands onceList cont meals ds plan st).1 meals).map
          lowerStr) := by
  intro ds
  induction ds with
  | nil =>
    intro plan st _ _ _ hchain _
    exact hchain
  | cons d rest ih =>
    intro plan st hkeys hfresh hprev hchain hne
    simp only [List.map_cons, List.nodup_cons] at hkeys
    have hfd : planGet plan ("Day" ++ toString d) = none :=
      hfresh d (List.mem_cons_self d rest)
    obtain ⟨Lnew, hscan, hch, hnen, hpr⟩ :=
      fillMeals_scan c cands onceList cont ("Day" ++ toString d) hcont hAR hn1 hn2
        meals ((planGet plan ("Day" ++ toString d)).getD []) st
        ((scanPlanRows plan meals).map lowerStr) hmnd
        (by intro m hm; simp [rowGet, hfd, alget]) hprev hchain hne
    have hsc1 : scanPlanRows (planSet plan ("Day" ++ toString d)
        (fillMeals c cands onceList cont ("Day" ++ toString d) meals
          ((planGet plan ("Day" ++ toString d)).getD []) st).1) meals =
        scanPlanRows plan meals ++
        scanRow (fillMeals c cands onceList cont ("Day" ++ toString d) meals
          ((planGet plan ("Day" ++ toString d)).getD []) st).1 meals :=
      scanPlanRows_planSet_fresh meals plan ("Day" ++ toString d) _ hfd
    simp only [fillDays]
    by_cases hstop : (fillMeals c cands onceList cont ("Day" ++ toString d) meals
        ((planGet plan ("Day" ++ toString d)).getD []) st).2.2 = true
    · rw [if_pos hstop]
      dsimp only
      rw [hsc1, List.map_append, hscan]
      exact hch
    · rw [if_neg hstop]
      refine ih _ _ hkeys.2 ?_ ?_ ?_ ?_
      · intro d' hd'
        have hmm2 : ("Day" ++ toString d' : String) ∈
            rest.map (fun d => "Day" ++ toString d) := List.mem_map_of_mem _ hd'
        have hne3 : ("Day" ++ toString d' : String) ≠ "Day" ++ toString d :=
          fun he => hkeys.1 (he ▸ hmm2)
        rw [planGet_planSet_ne plan _ hne3]
        exact hfresh d' (List.mem_cons_of_mem d hd')
      · rw [hsc1, List.map_append, hscan]
        exact hpr
      · rw [hsc1, List.map_append, hscan]
        exact hch
      · rw [hsc1, List.map_append, hscan]
        intro x hx
        rcases List.mem_append.mp hx with h | h
        · exact hne x h
        · exact hnen x h

theorem auto_plan_assemble_plan (days startAt : Int) (mealsLen : Nat)
    (res : Plan × LoopSt × Option Int) :
    (auto_plan_assemble days startAt mealsLen res).1.plan = res.1 := by
  obtain ⟨p, st, od⟩ := res
  cases od <;> rfl

/-- C9 counterexample: across a `continue` call the repeat guard fails.  A
fresh one-day call with the single no-ingredient dish `X` and
`allow_repeats = false` plans `Day1 » Dinner = X`; continuing that plan for
one more day plans `Day2 » Dinner = X` as well, because `prev_dish_lower`
is re-initialised to `None` at the start of each call and the cross-call
boundary slot is never compared.  The resulting plan, scanned in
day-major/meal-minor order, has two adjacent equal dishes, so the claimed
invariant does not hold for every plan produced by `AutoPlan`. -/
theorem C9_no_immediate_repeat_counterexample :
    repeatRun2.plan = [("Day1", [("Dinner", "X")]), ("Day2", [("Dinner", "X")])] ∧
    ¬ noConsecDup (scanPlanRows repeatRun2.plan ["Dinner"]) := by
  refine ⟨by decide, fun h => ?_⟩
  unfold noConsecDup at h
  rw [show (scanPlanRows repeatRun2.plan ["Dinner"]).map lowerStr = ["x", "x"]
    from by decide] at h
  exact (List.chain'_cons.mp h).1 rfl

/-- C9 (amended): within a single non-continue `auto_plan` call with
`allow_repeats = false`, the produced plan satisfies the no-immediate-repeat
rule in both freeform and pantry-first-strict modes: scanning filled slots
in day-major/meal-minor order, no dish equals the dish of the immediately
preceding filled slot (case-insensitively).  The hypotheses require the
catalog's stripped lowered names to be nonempty, the slot names to be
pairwise distinct, and the generated day keys to be pairwise distinct (true
of `Day1 … DayN`). -/
theorem C9_no_immediate_repeat_fresh (catalog : List Recipe) (c : Constraints)
    (days : Int) (mealsArg : MealsArg) (pantry : Store) (plan0 : Plan)
    (calcLog0 : List CalcEntry)
    (hAR : c.allowRepeats = false)
    (hnames : ∀ r ∈ catalog, nameLOf r ≠ "")
    (hmnd : (slot_names mealsArg).Nodup)
    (hkeys : ((((List.range days.toNat).map fun i => (1 : Int) + (i : Int)).map
      fun d => "Day" ++ toString d)).Nodup) :
    noConsecDup (scanPlanRows
      (auto_plan catalog c days mealsArg false pantry plan0 calcLog0).1.plan
      (slot_names mealsArg)) := by
  have hcand : ∀ r ∈ eligible_candidates catalog c, nameLOf r ≠ "" := by
    intro r hr
    unfold eligible_candidates at hr
    rw [mem_stableSortBy] at hr
    exact hnames r (List.mem_filter.mp hr).1
  unfold noConsecDup auto_plan
  rw [auto_plan_assemble_plan]
  refine fillDays_scan c (eligible_candidates catalog c) _ false (slot_names mealsArg)
    rfl hAR hcand ?_ hmnd _ _ _ ?_ ?_ ?_ ?_ ?_
  · intro r hr
    by_cases hs : (if c.mode = "pantry-first-strict" then shadow_snapshot pantry
        else []) ≠ []
    · rw [if_pos hs] at hr
      unfold coverable_once_sorted at hr
      rw [mem_stableSortBy] at hr
      exact hcand r (List.mem_filter.mp hr).1
    · rw [if_neg hs] at hr
      cases hr
  · exact hkeys
  · intro d hd
    rfl
  · rfl
  · exact List.chain'_nil
  · intro x hx
    exact absurd hx (List.not_mem_nil x)

/-- Witness for the amended C9 theorem: a fresh two-day freeform run over
dishes `A` and `X` with repeats disallowed, all hypotheses discharged
concretely. -/
theorem C9_no_immediate_repeat_fresh_witness :
    freeNoRep.allowRepeats = false ∧
    noConsecDup (scanPlanRows
      (auto_plan [dishA, dishX] freeNoRep 2 (.int 1) false [] [] []).1.plan
      (slot_names (.int 1))) :=
  ⟨by decide, C9_no_immediate_repeat_fresh [dishA, dishX] freeNoRep 2 (.int 1) [] [] []
    (by decide) (by decide) (by decide) (by decide)⟩

end MealPrep
